import Mathlib

/-!
Verification of the day-schedule normalizer (`scheduler.py`, `schedule_gui.py`)
against its natural-language specification.

The Python program stores a weekly schedule as a JSON object mapping day names
(or alias names such as "MW") to lists of events, each event being a two-element
list `["<start> - <end>", "<label>"]` of 12-hour time-range string and activity
label.  Times are parsed with `datetime.strptime(s, "%I:%M %p")` and formatted
with `strftime("%I:%M %p")`; a parse failure raises `ValueError`.

Modelling conventions used throughout this development:
* a wall-clock time is its minute-of-day (`0 ≤ m < 1440`);
* `datetime` values produced by `strptime` (possibly shifted by
  `timedelta(days=1)` for the 5 AM logical-day rule) are compared through
  `adjKey`, minutes since the base day's midnight;
* code that can raise an exception is embedded as an `Option`- (or sum-)valued
  function, `none` standing for the raised exception;
* Python dicts are insertion-ordered association lists (`lookupD` / `setD`);
* since `json.dump` runs only at the very end of each mutating operation, the
  persisted document is modelled by the value of the schedule dict at that
  point;
* string primitives (`split`, `strip`, `replace`, ...) are re-implemented over
  `List Char` with the semantics of the Python built-ins, so that every
  definition evaluates by kernel reduction.
-/

namespace Scheduler

/-! ### String primitives (Python `str` methods over `List Char`) -/

/-- `dropPrefixC pre l` returns `some rest` when `l = pre ++ rest`. -/
def dropPrefixC : List Char → List Char → Option (List Char)
  | [], rest => some rest
  | _ :: _, [] => none
  | p :: ps, c :: cs => if p = c then dropPrefixC ps cs else none

/-- Fuel-driven worker for `splitOnStr`; the fuel is the input length, enough
for any nonempty separator (every step consumes at least one character). -/
def splitChAux (sep : List Char) : Nat → List Char → List Char → List (List Char)
  | _, cur, [] => [cur.reverse]
  | 0, cur, l => [cur.reverse ++ l]
  | fuel + 1, cur, c :: rest =>
    match dropPrefixC sep (c :: rest) with
    | some tail => cur.reverse :: splitChAux sep fuel [] tail
    | none => splitChAux sep fuel (c :: cur) rest

/-- Python `s.split(sep)` for a nonempty separator. -/
def splitOnStr (s sep : String) : List String :=
  (splitChAux sep.data s.data.length [] s.data).map fun l => String.mk l

/-- Whitespace test used by Python `str.strip()` (ASCII cases suffice here). -/
def isSpaceChar (c : Char) : Bool :=
  c = ' ' ∨ c = '\t' ∨ c = '\n' ∨ c = '\r'

/-- Python `s.strip()`. -/
def stripStr (s : String) : String :=
  String.mk (((s.data.dropWhile isSpaceChar).reverse.dropWhile isSpaceChar).reverse)

/-- Python `s.upper()` (ASCII). -/
def upperStr (s : String) : String :=
  String.mk (s.data.map Char.toUpper)

/-- Python `s.lower()` (ASCII). -/
def lowerStr (s : String) : String :=
  String.mk (s.data.map Char.toLower)

/-- Python `c in s` for a single character `c`. -/
def containsChar (s : String) (c : Char) : Bool :=
  s.data.contains c

/-- Python `pat in s` for a nonempty pattern: the split has several parts. -/
def containsSub (s pat : String) : Bool :=
  match splitOnStr s pat with
  | [_] => false
  | _ => true

/-- Python `s.replace(pat, rep)`: split on `pat`, join with `rep`. -/
def replaceStr (s pat rep : String) : String :=
  String.mk (List.intercalate rep.data ((splitChAux pat.data s.data.length [] s.data)))

/-- Numeric value of an all-digit character list. -/
def digitsToNat (l : List Char) : Nat :=
  l.foldl (fun a c => a * 10 + (c.toNat - 48)) 0

/-- Python `len(s)`. -/
def strLen (s : String) : Nat := s.data.length

/-! ### 12-hour time parsing and formatting (`%I:%M %p`) -/

/-- One schedule entry: the Python two-element list `[time, label]`
(`time` is the raw `"<start> - <end>"` or start-only string). -/
structure Event where
  time : String
  label : String
deriving DecidableEq, Repr, Inhabited

/-- Parse of the hour field of `"%I:%M %p"`: one or two digits, value 1..12
(CPython `_strptime` matches `(1[0-2]|0[1-9]|[1-9])`). -/
def parseHour12 (s : String) : Option Nat :=
  let l := s.data
  if l.length = 0 ∨ 2 < l.length then none
  else if ¬ l.all Char.isDigit then none
  else
    let n := digitsToNat l
    if 1 ≤ n ∧ n ≤ 12 then some n else none

/-- Parse of the minute field of `"%I:%M %p"`: one or two digits, value 0..59. -/
def parseMinute (s : String) : Option Nat :=
  let l := s.data
  if l.length = 0 ∨ 2 < l.length then none
  else if ¬ l.all Char.isDigit then none
  else
    let n := digitsToNat l
    if n ≤ 59 then some n else none

/-- Parse of the AM/PM field of `"%I:%M %p"` (case-insensitive, like CPython).
`some true` means PM. -/
def parseAmPm (s : String) : Option Bool :=
  if upperStr s = "AM" then some false
  else if upperStr s = "PM" then some true
  else none

/-- `datetime.strptime(s, "%I:%M %p")`, returning the minute-of-day
(0..1439), or `none` where Python raises `ValueError`. -/
def parseTime12 (s : String) : Option Nat :=
  match splitOnStr s " " with
  | [hm, ap] =>
    match splitOnStr hm ":" with
    | [h, m] =>
      match parseHour12 h, parseMinute m, parseAmPm ap with
      | some hv, some mv, some pm =>
        some (((hv % 12) + (if pm then 12 else 0)) * 60 + mv)
      | _, _, _ => none
    | _ => none
  | _ => none

/-- Two-digit zero-padded decimal, as `strftime` renders `%I` and `%M`. -/
def pad2 (n : Nat) : String :=
  String.mk [Char.ofNat (48 + n / 10), Char.ofNat (48 + n % 10)]

/-- `dt.strftime("%I:%M %p")` for a datetime whose clock time is minute-of-day
`m` (day shifts do not affect the formatted clock time). -/
def format12 (m : Nat) : String :=
  let h24 := (m / 60) % 24
  let mi := m % 60
  let h12 := if h24 % 12 = 0 then 12 else h24 % 12
  pad2 h12 ++ ":" ++ pad2 mi ++ " " ++ (if h24 < 12 then "AM" else "PM")

/-- The logical-day comparison key: `strptime` value shifted by
`timedelta(days=1)` when the hour is before 5 AM, measured in minutes.
Comparing two shifted `datetime`s is comparing their `adjKey`s. -/
def adjKey (m : Nat) : Nat :=
  if m < 300 then m + 1440 else m

/-- Hour attribute of a parsed time (`dt.hour`; unaffected by day shifts). -/
def hourOf (m : Nat) : Nat := m / 60

/-! ### `check_for_overlap` -/

/-- Loop body of `check_for_overlap` (`scheduler.py` lines 329-379): the
`while` loop over the day's list with in-place deletion/assignment, written as
structural recursion with `acc` holding the already-visited prefix.  `sStr`,
`eStr` are the raw new start/end strings (used verbatim in f-strings), `s`, `e`
their parsed minute values.  `none` models a raised exception. -/
def checkOvGo (sStr eStr : String) (s e : Nat) (acc : List Event) :
    List Event → Option (List Event)
  | [] => some acc
  | ev :: rest =>
    match splitOnStr (stripStr ev.time) " - " with
    | [_] => checkOvGo sStr eStr s e (acc ++ [ev]) rest
    | [a, b] =>
      match parseTime12 (stripStr a), parseTime12 (stripStr b) with
      | some es, some ee =>
        if adjKey s ≤ adjKey es ∧ adjKey ee ≤ adjKey e then
          -- CASE 1: fully overlapped existing event is deleted
          checkOvGo sStr eStr s e acc rest
        else if adjKey es < adjKey s ∧ adjKey s < adjKey ee then
          -- CASE 2: shorten the past event's end to the new start
          checkOvGo sStr eStr s e (acc ++ [⟨a ++ " - " ++ sStr, ev.label⟩]) rest
        else if adjKey es < adjKey e ∧ adjKey e < adjKey ee then
          -- CASE 3: push the future event's start to the new end
          checkOvGo sStr eStr s e (acc ++ [⟨eStr ++ " - " ++ b, ev.label⟩]) rest
        else if adjKey e ≤ adjKey es then
          -- CASE 4: adjust only the next event's start, then break
          if es < 300 ∧ 18 < hourOf e then
            some (acc ++ [⟨format12 e ++ " - " ++ b, ev.label⟩] ++ rest)
          else
            some (acc ++ [ev] ++ rest)
        else
          checkOvGo sStr eStr s e (acc ++ [ev]) rest
      | _, _ => none
    | _ => none

/-- `check_for_overlap(day, start, end, schedule)` restricted to its effect on
`schedule[day]` (the only list it reads or writes).  `none` models a raised
`ValueError` (malformed `start`/`end`, an entry whose stripped time has several
`" - "` separators, or an unparsable entry time). -/
def check_for_overlap (startStr endStr : String) (events : List Event) :
    Option (List Event) :=
  match parseTime12 startStr, parseTime12 endStr with
  | some s, some e => checkOvGo startStr endStr s e [] events
  | _, _ => none

/-! ### `sort_schedule` -/

/-- Start-time string of an event as extracted by the Python code:
`event[0].split(" - ")[0].strip()`. -/
def startOf (ev : Event) : String :=
  match splitOnStr ev.time " - " with
  | [] => stripStr ev.time
  | p :: _ => stripStr p

/-- Sort key of one event (`sort_schedule`'s `event_key`): parse the start
time, move pre-5 AM starts to the end of the logical day.  `none` models the
`ValueError` raised by `strptime` on a malformed start. -/
def eventKey (ev : Event) : Option Nat :=
  (parseTime12 (startOf ev)).map adjKey

/-- Total version of the sort key used for the comparison relation (only
meaningful on events whose key parses). -/
def eventKeyD (ev : Event) : Nat :=
  (eventKey ev).getD 0

/-- Comparison relation used to model Python's `sorted(..., key=event_key)`. -/
def sortLE (a b : Event) : Prop :=
  eventKeyD a ≤ eventKeyD b

instance : DecidableRel sortLE := fun a b => by
  unfold sortLE; infer_instance

instance : IsTotal Event sortLE :=
  ⟨fun a b => Nat.le_total (eventKeyD a) (eventKeyD b)⟩

instance : IsTrans Event sortLE :=
  ⟨fun _ _ _ h h' => Nat.le_trans h h'⟩

/-- `sort_schedule` restricted to one day's list.  Python's `sorted` first
computes the key of every element (raising if any start fails to parse) and
then performs a stable sort; insertion sort on `sortLE` is stable and total, so
it agrees with CPython's stable sort on every list whose keys have no ties, and
satisfies the same ordering contract in general. -/
def sort_schedule_day (events : List Event) : Option (List Event) :=
  if events.all (fun ev => (eventKey ev).isSome) then
    some (events.insertionSort sortLE)
  else none

/-! ### `calculate_duration` (`scheduler.py` lines 416-426) -/

/-- Round to two decimal places, `round(x, 2)`.  Mathlib's `round` is
round-half-up while Python rounds half to even, but every value this program
rounds is `k/60` hours for integer minutes `k`, whose hundredths fraction is
`0`, `1/3` or `2/3` — never a tie — so the two agree on all reachable inputs
(and the float arithmetic is exact enough to round to the same cent). -/
def round2 (q : ℚ) : ℚ :=
  ((round (q * 100) : ℤ) : ℚ) / 100

/-- `scheduler.calculate_duration(start, end)`: parse both times, add one day
to the end when `end_time <= start_time`, return hours rounded to 2 decimals.
There is no exception handling here: `none` models the `ValueError` that
`strptime` raises on a malformed argument and propagates to the caller. -/
def calculate_duration (start «end» : String) : Option ℚ :=
  match parseTime12 start, parseTime12 «end» with
  | some s, some e =>
    let e' : ℤ := if e ≤ s then (e : ℤ) + 1440 else e
    some (round2 ((((e' - s) * 60 : ℤ) : ℚ) / 3600))
  | _, _ => none

/-! ### `delete_event` (`scheduler.py` lines 243-312), per-day core -/

/-- Result of `delete_event` on the resolved day's list.  `noMatch` is the
`for`-`else` early return (reported, nothing written), `crash` a raised
exception (e.g. `IndexError` on `split(' - ')[1]`), `written l` means the
document is persisted with the day's list replaced by `l`. -/
inductive DeleteResult where
  | noMatch
  | crash
  | written (events : List Event)
deriving DecidableEq, Repr

/-- The find-and-pop loop of `delete_event` (lines 266-281): first event whose
extracted start equals `start.strip()`; an event whose time contains no `"-"`
character is skipped (`continue`) even when it matches.  Returns the prefix
before the popped event, the popped event, and the suffix; `none` is the
`for`-`else` branch (no match). -/
def findDelGo (startP : String) (pre : List Event) :
    List Event → Option (List Event × Event × List Event)
  | [] => none
  | ev :: rest =>
    if stripStr startP = startOf ev then
      if containsChar ev.time '-' then some (pre, ev, rest)
      else findDelGo startP (pre ++ [ev]) rest
    else findDelGo startP (pre ++ [ev]) rest

/-- Second part of an event's time as read by the follower adjustment:
`entry[0].split(' - ')[1]` (raises when there is no separator). -/
def secondOf (ev : Event) : Option String :=
  match splitOnStr ev.time " - " with
  | _ :: p :: _ => some p
  | _ => none

/-- The "Bedtime" special case (lines 302-305): when the final list's last
event is labeled `bedtime` (case-insensitive) it is rewritten to the start-only
form `[last_start, "Bedtime"]`. -/
def bedtimeFix (events : List Event) : List Event :=
  match events.getLast? with
  | some lastEv =>
    if lowerStr lastEv.label = "bedtime" then
      events.dropLast ++ [⟨startOf lastEv, "Bedtime"⟩]
    else events
  | none => events

/-- `delete_event` restricted to the resolved day's list (the wrapper with
aliases, the missing-day early return and the `json.dump` are dealt with at
the call sites of the theorems).  After the pop at index `i = pre.length` the
code adjusts the follower only when `i < len(events) - 1`, i.e. when at least
two events follow the deleted one, and the preceding event always has its end
extended to the deleted start (its start cannot equal the deleted start, but
the code's guard is kept). -/
def delete_event_day (startP : String) (events : List Event) : DeleteResult :=
  match findDelGo startP [] events with
  | none => .noMatch
  | some (pre, _, post) =>
    -- next-event adjustment (lines 284-291)
    let next? : Option (List Event) :=
      match post with
      | q :: q2 :: qs =>
        if startP ≠ startOf q then
          match secondOf q with
          | some qEnd => some (⟨startP ++ " - " ++ qEnd, q.label⟩ :: q2 :: qs)
          | none => none
        else some (q :: q2 :: qs)
      | _ => some post
    match next? with
    | none => .crash
    | some post' =>
      -- previous-event adjustment (lines 294-300)
      let pre' :=
        match pre.getLast? with
        | some p =>
          if startOf p ≠ startP then
            pre.dropLast ++ [⟨startOf p ++ " - " ++ startP, p.label⟩]
          else pre
        | none => pre
      .written (bedtimeFix (pre' ++ post'))

/-! ### `get_next_day_start_time` and `adjust_schedule` -/

/-- Day list (`scheduler.py` line 104). -/
def days_of_week : List String :=
  ["Monday", "Tuesday", "Wednesday", "Thursday", "Friday", "Saturday", "Sunday"]

/-- Association-list model of a Python dict (insertion-ordered, first match).
Python dict keys are unique; the theorems assume key lists are `Nodup`. -/
def lookupD {α : Type} (m : List (String × α)) (k : String) : Option α :=
  match m.find? (fun p => p.1 == k) with
  | some p => some p.2
  | none => none

/-- `m[k] = v` on the dict model: update the (first) binding in place when the
key is present, append when absent (Python dict insertion order). -/
def setD {α : Type} : List (String × α) → String → α → List (String × α)
  | [], k, v => [(k, v)]
  | p :: tl, k, v => if p.1 == k then (k, v) :: tl else p :: setD tl k v

/-- `get_next_day_start_time(schedule, current_day)` (lines 101-118) over a
dict of plain event lists: first event's `split(" - ")[0]` (NOT stripped) of
the next weekday, `none` when the current day is not a weekday or the next day
is absent/empty. -/
def get_next_day_start_time (schedule : List (String × List Event))
    (current_day : String) : Option String :=
  match days_of_week.findIdx? (· == current_day) with
  | none => none
  | some i =>
    let next_day := days_of_week.getD ((i + 1) % days_of_week.length) ""
    match lookupD schedule next_day with
    | some (ev :: _) =>
      some (match splitOnStr ev.time " - " with
        | [] => ev.time
        | p :: _ => p)
    | _ => none

/-- Python truthiness applied to the optional next-day start
(`if next_day_start: ... else: "5:00 AM"`): `None` and `""` both fall back. -/
def orFiveAM (o : Option String) : String :=
  match o with
  | some s => if s = "" then "5:00 AM" else s
  | none => "5:00 AM"

/-- Loop body of `adjust_schedule` (`scheduler.py` lines 452-480) for one
entry: split the (unstripped) time on the bare `'-'`, strip the parts; keep an
existing end; give a `bedtime` event the next day's first start (else
`"5:00 AM"`); give any other end-less event `start + 1 hour`.  `none` models
the `ValueError` raised when the start of an end-less non-bedtime event fails
to parse. -/
def adjust_day_entry (schedule : List (String × List Event)) (day : String)
    (entry : Event) : Option (String × String × String) :=
  match (splitOnStr entry.time "-").map stripStr with
  | [] => none
  | st :: e :: _ => some (st, e, entry.label)
  | [st] =>
    if lowerStr entry.label = "bedtime" then
      some (st, orFiveAM (get_next_day_start_time schedule day), entry.label)
    else
      match parseTime12 st with
      | some m => some (st, format12 ((m + 60) % 1440), entry.label)
      | none => none

/-- `adjust_schedule(schedule)` with an alias map: each day's entries are
adjusted with `adjust_day_entry` (the loop's `next_day` computation on lines
442-449 is dead code — `get_next_day_start_time` recomputes the next weekday
from the original day name) and stored under the alias-resolved key. -/
def adjust_schedule (aliases : List (String × List String))
    (schedule : List (String × List Event)) :
    Option (List (String × List (String × String × String))) :=
  schedule.foldlM
    (fun acc p => do
      let actual := match aliases.find? (fun q => q.2.contains p.1) with
        | some q => q.1
        | none => p.1
      let day_schedule := (lookupD schedule actual).getD []
      let adjusted ← day_schedule.mapM (adjust_day_entry schedule p.1)
      pure (setD acc actual adjusted))
    []

end Scheduler

namespace ScheduleGui

open Scheduler

/-- `schedule_gui.calculate_duration(start, end=None)` (lines 197-217): the
guarded variant that returns `0.0` instead of raising.  `end = none` models
the Python default `None`. -/
def calculate_duration (start : String) («end» : Option String) : ℚ :=
  match «end» with
  | none => 0
  | some e =>
    if e = "" ∨ stripStr e = "" ∨ e = "DYNAMIC" ∨ strLen e < 4 then 0
    else
      match parseTime12 start, parseTime12 e with
      | some s, some t =>
        let t' : ℤ := if t ≤ s then (t : ℤ) + 1440 else t
        round2 ((((t' - s) * 60 : ℤ) : ℚ) / 3600)
      | _, _ => 0

end ScheduleGui

namespace Scheduler

/-! ### The schedule document and `expand_schedule` (value level)

A top-level JSON value for a day key is either a real event list or an
alias-name string (a template reference).  The value-level pipeline below is an
exact account of the final dict that `json.dump` writes for the configurations
used in the theorems (each member day of an alias group stores the alias-name
string); the in-place sharing that the Python code creates between the alias
template and the member-day copies is modelled separately, at address level,
by `expand_schedule_refs` below. -/

inductive DayVal where
  | ref (alias_name : String)
  | evs (events : List Event)
deriving DecidableEq, Repr

/-- `day in aliases` (alias-name test). -/
def alias_key (aliases : List (String × List String)) (d : String) : Bool :=
  aliases.any (fun p => p.1 == d)

/-- The alias resolution prologue shared by the CRUD operations: the first
alias whose member list contains `day`, else `day` itself. -/
def resolve_alias (aliases : List (String × List String)) (day : String) :
    String :=
  match aliases.find? (fun p => p.2.contains day) with
  | some p => p.1
  | none => day

/-- `list(schedule.get(alias, []))` as read by the expansion loop.  `none`
models the degenerate case of a template key holding another alias-name
string, where Python's `list(...)` would produce a character list that the
rest of the pipeline cannot process. -/
def get_tasks (sched : List (String × DayVal)) (a : String) :
    Option (List Event) :=
  match lookupD sched a with
  | some (.evs l) => some l
  | some (.ref _) => none
  | none => some []

/-- One step of the expansion loop: process day `p` of the raw schedule `m`
into the accumulated expansion `acc`. -/
def expand_step (aliases : List (String × List String))
    (m : List (String × DayVal)) (acc : List (String × DayVal))
    (p : String × DayVal) : Option (List (String × DayVal)) :=
  if alias_key aliases p.1 then pure acc
  else
    match p.2 with
    | .ref s =>
      if alias_key aliases s then
        (get_tasks m s).map (fun l => setD acc p.1 (.evs l))
      else pure (setD acc p.1 p.2)
    | .evs l => pure (setD acc p.1 (.evs l))

/-- The expansion loop of `expand_schedule` (lines 396-406): alias keys are
skipped; a day whose value is an alias-name string receives a copy of the
template's list; any other day keeps its value. -/
def expand_fold (aliases : List (String × List String))
    (sched : List (String × DayVal)) : Option (List (String × DayVal)) :=
  sched.foldlM (expand_step aliases sched) []

/-- The template-refresh loop (`expand_schedule` lines 409-411, and verbatim
again in `update_json_schedule` lines 180-182 and `add_event_to_json` lines
232-234): when every member day of an alias is present in the expansion, the
alias key is reassigned the FIRST member day's expanded value.  `none` models
the `IndexError` on `mapped_days[0]` for an empty member list.
`restore_step` is the body for one alias. -/
def restore_step (expanded : List (String × DayVal))
    (s : List (String × DayVal)) (p : String × List String) :
    Option (List (String × DayVal)) :=
  if p.2.all (fun d => (lookupD expanded d).isSome) then
    match p.2 with
    | [] => none
    | d0 :: _ =>
      match lookupD expanded d0 with
      | some v => pure (setD s p.1 v)
      | none => none
  else pure s

def restore_templates (aliases : List (String × List String))
    (expanded sched : List (String × DayVal)) :
    Option (List (String × DayVal)) :=
  aliases.foldlM (restore_step expanded) sched

/-- `expand_schedule(schedule)` (lines 386-413): returns the expanded dict
and the input dict as mutated by the template-refresh loop. -/
def expand_schedule (aliases : List (String × List String))
    (sched : List (String × DayVal)) :
    Option (List (String × DayVal) × List (String × DayVal)) := do
  let exp ← expand_fold aliases sched
  let sched' ← restore_templates aliases exp sched
  pure (exp, sched')

/-- The "ensure alias templates remain accessible" loop of the add/update
wrappers (lines 142-144 / 212-214): copy each alias key still missing from the
expansion from the (already refreshed) schedule dict. -/
def ensure_step (sched : List (String × DayVal))
    (ex : List (String × DayVal)) (p : String × List String) :
    List (String × DayVal) :=
  match lookupD sched p.1 with
  | some v => if (lookupD ex p.1).isNone then setD ex p.1 v else ex
  | none => ex

def ensure_templates (aliases : List (String × List String))
    (sched expanded : List (String × DayVal)) : List (String × DayVal) :=
  aliases.foldl (ensure_step sched) expanded

/-- Outcome of a mutating operation on the document.  `aborted` is an early
`return` before `json.dump` (nothing persisted), `crash` a raised exception,
`written doc` the dict passed to `json.dump`. -/
inductive MutResult where
  | aborted
  | crash
  | written (doc : List (String × DayVal))
deriving DecidableEq, Repr

/-- The in-memory transformation of the resolved day's list performed by
`update_json_schedule` (lines 153-177): append a temporary copy of the edited
event, run overlap resolution (which deletes the temporary copy unless the
scan stops early at CASE 4), strip the marker from any survivor, run overlap
resolution again, append the edited event, run overlap resolution a third
time, then sort.  The `old_start` argument of the Python function is never
read, so it is not a parameter here. -/
def update_core (newS newE act : String) (events : List Event) :
    Option (List Event) := do
  let ev0 := events ++ [⟨newS ++ " - " ++ newE, act ++ " ##TEMP##"⟩]
  let ev1 ← check_for_overlap newS newE ev0
  let ev2 := ev1.map (fun ev =>
    if containsSub ev.label "##TEMP##" then
      ⟨ev.time, stripStr (replaceStr ev.label "##TEMP##" "")⟩
    else ev)
  let ev3 ← check_for_overlap newS newE ev2
  let ev4 := ev3 ++ [⟨newS ++ " - " ++ newE, act⟩]
  let ev5 ← check_for_overlap newS newE ev4
  sort_schedule_day ev5

/-- `update_json_schedule(day, old_start, new_start, new_end, new_activity)`
(lines 120-189) at document level.  `old_start` is listed to mirror the
Python signature; the body never reads it. -/
def update_json_schedule (aliases : List (String × List String))
    (sched : List (String × DayVal))
    (day old_start newS newE act : String) : MutResult :=
  let _ := old_start
  let actual := resolve_alias aliases day
  match expand_schedule aliases sched with
  | none => .crash
  | some (exp0, sched1) =>
    let exp1 := ensure_templates aliases sched1 exp0
    match lookupD exp1 actual with
    | none => .aborted
    | some (.ref _) => .crash
    | some (.evs evs0) =>
      match update_core newS newE act evs0 with
      | none => .crash
      | some final =>
        let exp2 := setD exp1 actual (.evs final)
        match restore_templates aliases exp2 sched1 with
        | none => .crash
        | some sched2 => .written (setD sched2 actual (.evs final))

/-- `add_event_to_json(day, new_start, new_end, new_activity)` (lines 191-241)
at document level: overlap resolution against the resolved day, append, sort,
refresh alias templates, persist. -/
def add_event_to_json (aliases : List (String × List String))
    (sched : List (String × DayVal)) (day newS newE act : String) :
    MutResult :=
  let actual := resolve_alias aliases day
  match expand_schedule aliases sched with
  | none => .crash
  | some (exp0, sched1) =>
    let exp1 := ensure_templates aliases sched1 exp0
    let exp2 := if (lookupD exp1 actual).isNone then setD exp1 actual (.evs [])
      else exp1
    match lookupD exp2 actual with
    | some (.evs evs0) =>
      match check_for_overlap newS newE evs0 with
      | none => .crash
      | some evs1 =>
        let evs2 := evs1 ++ [⟨newS ++ " - " ++ newE, act⟩]
        match sort_schedule_day evs2 with
        | none => .crash
        | some evs3 =>
          let exp3 := setD exp2 actual (.evs evs3)
          match restore_templates aliases exp3 sched1 with
          | none => .crash
          | some sched2 => .written (setD sched2 actual (.evs evs3))
    | _ => .crash

/-! ### Address-level model of `expand_schedule`

Python events are mutable two-element lists; a day's schedule is a list of
references to those event cells.  `list(schedule.get(alias, []))` (line 403)
copies only the outer list: the member days and the template keep referring to
the same event cells.  Here a heap of event cells makes that sharing explicit:
an address is an index into `cells`, a day value is either an alias-name
string or a list of addresses, and an in-place edit of one event
(`schedule[day][i][0] = ...` in `check_for_overlap`) is a single `cells`
update. -/

inductive RDayVal where
  | ref (alias_name : String)
  | lst (addrs : List Nat)
deriving DecidableEq, Repr

/-- `expand_schedule`'s expansion loop at address level: the `list(...)` copy
duplicates the outer list of addresses but not the cells they point to. -/
def expand_fold_refs (aliases : List (String × List String))
    (sched : List (String × RDayVal)) : List (String × RDayVal) :=
  sched.foldl
    (fun acc p =>
      if alias_key aliases p.1 then acc
      else
        match p.2 with
        | .ref s =>
          if alias_key aliases s then
            setD acc p.1 (.lst (match lookupD sched s with
              | some (.lst addrs) => addrs
              | _ => []))
          else setD acc p.1 p.2
        | .lst addrs => setD acc p.1 (.lst addrs))
    []

/-- The template-refresh loop at address level. -/
def restore_templates_refs (aliases : List (String × List String))
    (expanded sched : List (String × RDayVal)) : List (String × RDayVal) :=
  aliases.foldl
    (fun s p =>
      if p.2.all (fun d => (lookupD expanded d).isSome) then
        match p.2 with
        | d0 :: _ =>
          match lookupD expanded d0 with
          | some v => setD s p.1 v
          | none => s
        | [] => s
      else s)
    sched

/-- `expand_schedule` at address level (expansion plus template refresh). -/
def expand_schedule_refs (aliases : List (String × List String))
    (sched : List (String × RDayVal)) :
    List (String × RDayVal) × List (String × RDayVal) :=
  let exp := expand_fold_refs aliases sched
  (exp, restore_templates_refs aliases exp sched)

/-- The event list a day value denotes, reading every address through the
heap (out-of-range addresses yield a placeholder, never reached here). -/
def derefDay (cells : List Event) (v : Option RDayVal) : List Event :=
  match v with
  | some (.lst addrs) => addrs.map (fun a => cells.getD a ⟨"", ""⟩)
  | _ => []

/-- In-place rewrite of one event's time field,
`schedule[day][i][0] = new_time`, applied through a day value. -/
def writeTimeAt (cells : List Event) (v : Option RDayVal) (i : Nat)
    (new_time : String) : List Event :=
  match v with
  | some (.lst addrs) =>
    match addrs.get? i with
    | some a => cells.set a ⟨new_time, (cells.getD a ⟨"", ""⟩).label⟩
    | none => cells
  | _ => cells

end Scheduler

namespace Scheduler

/-! ### Helper lemmas -/

theorem parseMinute_le {s : String} {m : Nat} (h : parseMinute s = some m) :
    m ≤ 59 := by
  simp only [parseMinute] at h
  split at h
  · exact absurd h (by simp)
  split at h
  · exact absurd h (by simp)
  split at h
  next hle => simp only [Option.some.injEq] at h; omega
  next => exact absurd h (by simp)

theorem parseTime12_lt {s : String} {m : Nat} (h : parseTime12 s = some m) :
    m < 1440 := by
  unfold parseTime12 at h
  split at h
  case _ hm ap _ =>
    split at h
    case _ hh mm _ =>
      split at h
      case _ hv mv pm hhv hmv hpm =>
        have hmv59 : mv ≤ 59 := parseMinute_le hmv
        have hmod : hv % 12 < 12 := Nat.mod_lt hv (by omega)
        cases pm <;> simp_all <;> omega
      case _ => exact absurd h (by simp)
    case _ => exact absurd h (by simp)
  case _ => exact absurd h (by simp)

end Scheduler

namespace Scheduler

/-! ### Claims C1 and C3, on `update_json_schedule` -/

/-- C1 (code bug): updating the only event of an overlap-free day to the range
`9:00 AM - 10:00 AM` persists an EMPTY day list: the third overlap pass, run
after the edited event is appended, classifies the edited event itself as
fully overlapped (CASE 1) and deletes it.  The persisted list therefore
contains zero events with the new time range and label, not exactly one as the
specification requires. -/
theorem update_json_schedule_deletes_edited_event :
    update_json_schedule [] [("Monday", .evs [⟨"9:00 AM - 10:00 AM", "A"⟩])]
        "Monday" "9:00 AM" "9:00 AM" "10:00 AM" "A2"
      = .written [("Monday", .evs [])] ∧
    ([] : List Event).countP
        (fun ev => ev.time == "9:00 AM - 10:00 AM" && ev.label == "A2") = 0 := by
  constructor
  · decide
  · decide

/-- C3 (code bug): `update_json_schedule` never reads its `old_start`
argument.  Here no event of the day starts at `3:00 PM`, yet the operation
persists a modified document (the existing event is truncated by the overlap
pass for the new interval), instead of aborting without a write. -/
theorem update_json_schedule_ignores_old_start :
    update_json_schedule [] [("Monday", .evs [⟨"9:00 AM - 10:00 AM", "A"⟩])]
        "Monday" "3:00 PM" "9:30 AM" "10:30 AM" "X"
      = .written [("Monday", .evs [⟨"9:00 AM - 9:30 AM", "A"⟩])] ∧
    [("Monday", DayVal.evs [⟨"9:00 AM - 9:30 AM", "A"⟩])]
      ≠ [("Monday", DayVal.evs [⟨"9:00 AM - 10:00 AM", "A"⟩])] ∧
    [Event.mk "9:00 AM - 10:00 AM" "A"].all
      (fun ev => ¬(startOf ev == stripStr "3:00 PM")) = true := by
  refine ⟨by decide, by decide, by decide⟩

/-! ### Claim C2, on CASE 4 of `check_for_overlap` -/

/-- C2 (counterexample): the new interval ends at `10:00 AM` and the existing
event starts at `11:00 AM` (at/after the new end), yet its start is NOT set to
the new end: the code's overnight guard (`existing hour < 5 and new end hour
> 18`) fails, so the event is left unchanged. -/
theorem check_for_overlap_case4_counterexample :
    check_for_overlap "9:00 AM" "10:00 AM" [⟨"11:00 AM - 12:00 PM", "B"⟩]
      = some [⟨"11:00 AM - 12:00 PM", "B"⟩] ∧
    parseTime12 "10:00 AM" = some 600 ∧
    parseTime12 "11:00 AM" = some 660 ∧
    600 ≤ 660 ∧
    (Event.mk "11:00 AM - 12:00 PM" "B").time ≠ "10:00 AM - 12:00 PM" := by
  refine ⟨by decide, by decide, by decide, by decide, by decide⟩

/-- C2 (amended): when the scan reaches the first event whose (logical-day
shifted) start is at or after the new end — and the event is not degenerate
enough to be swallowed by CASE 1 — the loop stops without examining the rest
of the list; the event's start is rewritten to the new end (zero-padded by
`strftime`, end preserved) ONLY when the event starts before 5 AM and the new
end is after 6 PM, and is left unchanged otherwise. -/
theorem check_for_overlap_case4_amended
    (sStr eStr a b : String) (s e es ee : Nat) (acc rest : List Event)
    (ev : Event)
    (hsplit : splitOnStr (stripStr ev.time) " - " = [a, b])
    (hes : parseTime12 (stripStr a) = some es)
    (hee : parseTime12 (stripStr b) = some ee)
    (hse : adjKey s ≤ adjKey e)
    (h4 : adjKey e ≤ adjKey es)
    (h1 : ¬(adjKey s ≤ adjKey es ∧ adjKey ee ≤ adjKey e)) :
    checkOvGo sStr eStr s e acc (ev :: rest) =
      some (acc ++ [if es < 300 ∧ 18 < hourOf e then
          ⟨format12 e ++ " - " ++ b, ev.label⟩ else ev] ++ rest) := by
  have h2' : ¬(adjKey es < adjKey s ∧ adjKey s < adjKey ee) := by omega
  have h3' : ¬(adjKey es < adjKey e ∧ adjKey e < adjKey ee) := by omega
  simp only [checkOvGo, hsplit, hes, hee]
  rw [if_neg h1, if_neg h2', if_neg h3', if_pos h4]
  split_ifs <;> simp

/-- Witness for `check_for_overlap_case4_amended`: editing `7:00 PM - 8:00 PM`
with a following overnight event `1:00 AM - 2:00 AM`; the event's start is
rewritten to the zero-padded `08:00 PM` and the later `3:00 AM` event is never
touched. -/
theorem check_for_overlap_case4_amended_witness :
    checkOvGo "7:00 PM" "8:00 PM" 1140 1200 []
        [⟨"1:00 AM - 2:00 AM", "N"⟩, ⟨"3:00 AM - 4:00 AM", "M"⟩]
      = some [⟨"08:00 PM - 2:00 AM", "N"⟩, ⟨"3:00 AM - 4:00 AM", "M"⟩] := by
  have h := check_for_overlap_case4_amended "7:00 PM" "8:00 PM"
    "1:00 AM" "2:00 AM" 1140 1200 60 120 [] [⟨"3:00 AM - 4:00 AM", "M"⟩]
    ⟨"1:00 AM - 2:00 AM", "N"⟩ (by decide) (by decide) (by decide)
    (by decide) (by decide) (by decide)
  simpa using h

/-! ### Claims C4 and C10, on `delete_event` -/

theorem findDelGo_append (s : String) (l : List Event) :
    ∀ (acc rest : List Event),
      (∀ ev ∈ l, stripStr s ≠ startOf ev) →
      findDelGo s acc (l ++ rest) = findDelGo s (acc ++ l) rest := by
  induction l with
  | nil => intro acc rest _; simp
  | cons ev tl ih =>
    intro acc rest h
    have hne : stripStr s ≠ startOf ev := h ev (by simp)
    simp only [List.cons_append, findDelGo, if_neg hne]
    have := ih (acc ++ [ev]) rest (fun e he => h e (by simp [he]))
    simpa using this

theorem findDelGo_found (s : String) (pre : List Event) (d : Event)
    (post : List Event)
    (hpre : ∀ ev ∈ pre, stripStr s ≠ startOf ev)
    (hd : stripStr s = startOf d)
    (hdash : containsChar d.time '-' = true) :
    findDelGo s [] (pre ++ d :: post) = some (pre, d, post) := by
  rw [findDelGo_append s pre [] (d :: post) hpre]
  simp only [List.nil_append, findDelGo, if_pos hd, hdash]
  simp

theorem bedtimeFix_of_not_bedtime (l : List Event) (x : Event)
    (hx : l.getLast? = some x) (h : lowerStr x.label ≠ "bedtime") :
    bedtimeFix l = l := by
  unfold bedtimeFix
  rw [hx]
  simp [h]

theorem bedtimeFix_of_bedtime (l : List Event) (x : Event)
    (hx : l.getLast? = some x) (h : lowerStr x.label = "bedtime") :
    bedtimeFix l = l.dropLast ++ [⟨startOf x, "Bedtime"⟩] := by
  unfold bedtimeFix
  rw [hx]
  simp [h]

/-- C4 (counterexample): deleting `9:00 AM - 10:00 AM` when it is followed by
exactly one event.  The follower `B` exists, so per the claim its start should
be pulled back to `9:00 AM`, but the code's guard `i < len(events) - 1` skips
the adjustment whenever the follower is the day's last event: `B` is persisted
unchanged. -/
theorem delete_event_follower_counterexample :
    delete_event_day "9:00 AM"
        [⟨"9:00 AM - 10:00 AM", "A"⟩, ⟨"10:00 AM - 11:00 AM", "B"⟩]
      = .written [⟨"10:00 AM - 11:00 AM", "B"⟩] ∧
    DeleteResult.written [Event.mk "10:00 AM - 11:00 AM" "B"]
      ≠ .written [⟨"9:00 AM - 11:00 AM", "B"⟩] := by
  refine ⟨by decide, by decide⟩

/-- C4 (amended): after `delete_event` removes the (first) event matching the
given start, (i) when at least TWO events follow the deleted one, the
immediately following event's start is pulled back to the deleted start while
the preceding event's end is extended to it, and no other event changes; and
(ii) when the deleted event is followed exactly by a final `bedtime` event,
the follower adjustment is skipped, the preceding event's end is extended,
and the terminal event is left start-only as `[start, "Bedtime"]`. -/
theorem delete_event_adjustments_amended :
    (∀ (s : String) (pre0 : List Event) (p d q r : Event) (rest : List Event)
        (qb : String),
      (∀ ev ∈ pre0 ++ [p], stripStr s ≠ startOf ev) →
      stripStr s = startOf d →
      containsChar d.time '-' = true →
      secondOf q = some qb →
      s ≠ startOf q →
      startOf p ≠ s →
      (∀ x, (r :: rest).getLast? = some x → lowerStr x.label ≠ "bedtime") →
      delete_event_day s (pre0 ++ [p] ++ [d] ++ [q, r] ++ rest)
        = .written (pre0 ++ [Event.mk (startOf p ++ " - " ++ s) p.label,
            Event.mk (s ++ " - " ++ qb) q.label, r] ++ rest)) ∧
    (∀ (s : String) (pre0 : List Event) (p d b : Event),
      (∀ ev ∈ pre0 ++ [p], stripStr s ≠ startOf ev) →
      stripStr s = startOf d →
      containsChar d.time '-' = true →
      startOf p ≠ s →
      lowerStr b.label = "bedtime" →
      delete_event_day s (pre0 ++ [p] ++ [d] ++ [b])
        = .written (pre0 ++ [Event.mk (startOf p ++ " - " ++ s) p.label,
            Event.mk (startOf b) "Bedtime"])) := by
  constructor
  · intro s pre0 p d q r rest qb hpre hd hdash hq hqs hps hbed
    have hfind : findDelGo s [] ((pre0 ++ [p]) ++ d :: (q :: r :: rest))
        = some (pre0 ++ [p], d, q :: r :: rest) :=
      findDelGo_found s (pre0 ++ [p]) d (q :: r :: rest) hpre hd hdash
    have hsh : (pre0 ++ [p] ++ [d] ++ [q, r] ++ rest)
        = (pre0 ++ [p]) ++ d :: (q :: r :: rest) := by simp
    unfold delete_event_day
    rw [hsh, hfind]
    simp only [if_pos hqs, hq]
    have hlast : (pre0 ++ [p]).getLast? = some p := by simp
    simp only [hlast, if_pos hps, List.dropLast_concat]
    have hlast2 : ((pre0 ++ [Event.mk (startOf p ++ " - " ++ s) p.label]) ++
        (Event.mk (s ++ " - " ++ qb) q.label :: r :: rest)).getLast?
        = (r :: rest).getLast? := by
      rw [List.getLast?_append_cons, List.getLast?_cons_cons]
    obtain ⟨x, hx⟩ : ∃ x, (r :: rest).getLast? = some x := by
      cases rest with
      | nil => exact ⟨r, rfl⟩
      | cons y ys =>
        have : (r :: y :: ys).getLast? ≠ none := by
          simp [List.getLast?_eq_none_iff]
        exact Option.ne_none_iff_exists'.mp this
    rw [bedtimeFix_of_not_bedtime _ x (by rw [hlast2]; exact hx) (hbed x hx)]
    simp
  · intro s pre0 p d b hpre hd hdash hps hb
    have hfind : findDelGo s [] ((pre0 ++ [p]) ++ d :: [b])
        = some (pre0 ++ [p], d, [b]) :=
      findDelGo_found s (pre0 ++ [p]) d [b] hpre hd hdash
    have hsh : (pre0 ++ [p] ++ [d] ++ [b]) = (pre0 ++ [p]) ++ d :: [b] := by
      simp
    unfold delete_event_day
    rw [hsh, hfind]
    have hlast : (pre0 ++ [p]).getLast? = some p := by simp
    simp only [hlast, if_pos hps, List.dropLast_concat]
    have hlast2 : ((pre0 ++ [Event.mk (startOf p ++ " - " ++ s) p.label])
        ++ [b]).getLast? = some b := by simp
    rw [bedtimeFix_of_bedtime _ b hlast2 hb]
    simp

/-- Witness for `delete_event_adjustments_amended` at concrete inputs: both
the two-follower case and the terminal-bedtime case. -/
theorem delete_event_adjustments_amended_witness :
    delete_event_day "10:00 AM"
        [⟨"9:00 AM - 10:00 AM", "A"⟩, ⟨"10:00 AM - 11:00 AM", "B"⟩,
          ⟨"11:00 AM - 12:00 PM", "C"⟩, ⟨"12:00 PM - 1:00 PM", "D"⟩]
      = .written [⟨"9:00 AM - 10:00 AM", "A"⟩,
          ⟨"10:00 AM - 12:00 PM", "C"⟩, ⟨"12:00 PM - 1:00 PM", "D"⟩] ∧
    delete_event_day "10:00 PM"
        [⟨"9:00 PM - 10:00 PM", "A"⟩, ⟨"10:00 PM - 10:45 PM", "B"⟩,
          ⟨"10:45 PM", "Bedtime"⟩]
      = .written [⟨"9:00 PM - 10:00 PM", "A"⟩, ⟨"10:45 PM", "Bedtime"⟩] := by
  constructor
  · have h := delete_event_adjustments_amended.1 "10:00 AM" []
      (Event.mk "9:00 AM - 10:00 AM" "A") (Event.mk "10:00 AM - 11:00 AM" "B")
      (Event.mk "11:00 AM - 12:00 PM" "C") (Event.mk "12:00 PM - 1:00 PM" "D")
      [] "12:00 PM"
      (by decide) (by decide) (by decide) (by decide) (by decide) (by decide)
      (by intro x hx; simp only [List.getLast?_singleton,
        Option.some.injEq] at hx; subst hx; decide)
    have hflat : ([] : List Event) ++ [Event.mk "9:00 AM - 10:00 AM" "A"]
        ++ [Event.mk "10:00 AM - 11:00 AM" "B"]
        ++ [Event.mk "11:00 AM - 12:00 PM" "C", Event.mk "12:00 PM - 1:00 PM" "D"]
        ++ []
        = [Event.mk "9:00 AM - 10:00 AM" "A", Event.mk "10:00 AM - 11:00 AM" "B",
            Event.mk "11:00 AM - 12:00 PM" "C", Event.mk "12:00 PM - 1:00 PM" "D"] := by
      simp
    rw [hflat] at h
    rw [h]
    decide
  · have h := delete_event_adjustments_amended.2 "10:00 PM" []
      (Event.mk "9:00 PM - 10:00 PM" "A") (Event.mk "10:00 PM - 10:45 PM" "B")
      (Event.mk "10:45 PM" "Bedtime")
      (by decide) (by decide) (by decide) (by decide) (by decide)
    have hflat : ([] : List Event) ++ [Event.mk "9:00 PM - 10:00 PM" "A"]
        ++ [Event.mk "10:00 PM - 10:45 PM" "B"] ++ [Event.mk "10:45 PM" "Bedtime"]
        = [Event.mk "9:00 PM - 10:00 PM" "A", Event.mk "10:00 PM - 10:45 PM" "B",
            Event.mk "10:45 PM" "Bedtime"] := by
      simp
    rw [hflat] at h
    rw [h]
    decide

/-- C10 (counterexample): the code skips only events whose time field contains
no `'-'` CHARACTER, not those lacking the two-sided `" - "` separator.  An
event whose time is `"5:00 PM-"` has no `" - "` separator, yet it IS deleted
and the document IS written. -/
theorem delete_event_single_time_counterexample :
    delete_event_day "5:00 PM-" [⟨"5:00 PM-", "X"⟩] = .written [] ∧
    containsSub "5:00 PM-" " - " = false ∧
    DeleteResult.written ([] : List Event) ≠ .noMatch := by
  refine ⟨by decide, by decide, by decide⟩

/-- C10 (amended): when every event matching the requested start has a time
field containing no `'-'` character (true start-only events such as a bedtime
marker), `delete_event` removes nothing: each match is skipped, the
`for`-`else` branch reports that no matching event was found, and the function
returns before the document write. -/
theorem delete_event_single_time_skip_amended (s : String)
    (events : List Event)
    (h : ∀ ev ∈ events, stripStr s = startOf ev →
      containsChar ev.time '-' = false) :
    delete_event_day s events = .noMatch := by
  have hfind : ∀ acc, findDelGo s acc events = none := by
    induction events with
    | nil => intro acc; rfl
    | cons ev tl ih =>
      intro acc
      by_cases hm : stripStr s = startOf ev
      · have hc : containsChar ev.time '-' = false := h ev (by simp) hm
        simp only [findDelGo, if_pos hm, hc]
        exact ih (fun e he hme => h e (by simp [he]) hme) (acc ++ [ev])
      · simp only [findDelGo, if_neg hm]
        exact ih (fun e he hme => h e (by simp [he]) hme) (acc ++ [ev])
  unfold delete_event_day
  rw [hfind []]

/-- Witness for `delete_event_single_time_skip_amended`: deleting at the start
of a start-only bedtime marker is reported as no match, with no write. -/
theorem delete_event_single_time_skip_amended_witness :
    delete_event_day "10:45 PM" [⟨"10:45 PM", "Bedtime"⟩] = .noMatch := by
  exact delete_event_single_time_skip_amended "10:45 PM"
    [⟨"10:45 PM", "Bedtime"⟩] (by decide)

/-! ### Claim C5, on the two `calculate_duration` functions -/

/-- C5 (counterexample): `scheduler.calculate_duration` has no exception
handling — on a blank end time `strptime` raises `ValueError`, which
propagates to the caller instead of yielding `0.0`. -/
theorem calculate_duration_raises_counterexample :
    calculate_duration "9:00 AM" "" = none ∧
    calculate_duration "9:00 AM" "" ≠ some 0 := by
  refine ⟨by decide, by decide⟩

/-- C5 (amended): the GUI variant (`schedule_gui.calculate_duration`) returns
exactly `0.0` without raising whenever the end time is absent, blank or
malformed; and for well-formed 12-hour times with end ≤ start BOTH variants
return the hours from start to end+24h rounded to two decimals —
`scheduler.calculate_duration`, however, raises on an absent/blank/malformed
end rather than returning `0.0`. -/
theorem calculate_duration_amended :
    (∀ (start : String) (e : Option String),
      (e = none ∨ ∃ es, e = some es ∧
        (stripStr es = "" ∨ parseTime12 es = none)) →
      ScheduleGui.calculate_duration start e = 0) ∧
    (∀ (start e : String) (sm em : Nat),
      parseTime12 start = some sm → parseTime12 e = some em → em ≤ sm →
      stripStr e ≠ "" → e ≠ "DYNAMIC" → ¬ strLen e < 4 →
      ScheduleGui.calculate_duration start (some e)
          = round2 ((((em : ℤ) + 1440 - sm : ℤ) : ℚ) / 60) ∧
        calculate_duration start e
          = some (round2 ((((em : ℤ) + 1440 - sm : ℤ) : ℚ) / 60))) := by
  constructor
  · intro start e he
    rcases he with rfl | ⟨es, rfl, hb⟩
    · rfl
    · simp only [ScheduleGui.calculate_duration]
      rcases hb with hb | hb
      · rw [if_pos (Or.inr (Or.inl hb))]
      · by_cases hg : es = "" ∨ stripStr es = "" ∨ es = "DYNAMIC" ∨
            strLen es < 4
        · rw [if_pos hg]
        · rw [if_neg hg]
          rcases hps : parseTime12 start with _ | v <;> simp [hps, hb]
  · intro start e sm em hs he hle h1 h2 h3
    have hne : ¬(e = "" ∨ stripStr e = "" ∨ e = "DYNAMIC" ∨ strLen e < 4) := by
      rintro (rfl | h | h | h)
      · exact h1 (by decide)
      · exact h1 h
      · exact h2 h
      · exact h3 h
    constructor
    · simp only [ScheduleGui.calculate_duration]
      rw [if_neg hne]
      simp only [hs, he, if_pos hle]
      congr 1
      push_cast
      ring
    · unfold calculate_duration
      simp only [hs, he, if_pos hle]
      refine congrArg some ?_
      congr 1
      push_cast
      ring

/-- Witness for `calculate_duration_amended`: a malformed end yields `0.0` in
the GUI variant; `9:00 PM` to `8:00 AM` (end ≤ start) yields `11.0` hours in
both variants. -/
theorem calculate_duration_amended_witness :
    ScheduleGui.calculate_duration "9:00 AM" (some "junk") = 0 ∧
    ScheduleGui.calculate_duration "9:00 PM" (some "8:00 AM") = 11 ∧
    calculate_duration "9:00 PM" "8:00 AM" = some 11 := by
  refine ⟨?_, ?_, ?_⟩
  · exact calculate_duration_amended.1 "9:00 AM" (some "junk")
      (Or.inr ⟨"junk", rfl, Or.inr (by decide)⟩)
  · have h := (calculate_duration_amended.2 "9:00 PM" "8:00 AM" 1260 480
      (by decide) (by decide) (by decide) (by decide) (by decide) (by decide)).1
    rw [h]
    norm_num [round2, round_eq]
  · have h := (calculate_duration_amended.2 "9:00 PM" "8:00 AM" 1260 480
      (by decide) (by decide) (by decide) (by decide) (by decide) (by decide)).2
    rw [h]
    norm_num [round2, round_eq]

/-! ### Claim C6, on `sort_schedule` -/

/-- Raw (unshifted) parsed start minute of an event. -/
def rawStart (ev : Event) : Nat :=
  (parseTime12 (startOf ev)).getD 0

/-- An event starting in [12:00 AM, 5:00 AM). -/
def pre5 (ev : Event) : Prop := rawStart ev < 300

/-- The ordering contract claimed for `sort_schedule`: a pre-5 AM event is
never followed by a post-5 AM event, and within the same group starts are
ascending. -/
def fiveAmOrder (a b : Event) : Prop :=
  (pre5 a → pre5 b) ∧ ((pre5 a ↔ pre5 b) → rawStart a ≤ rawStart b)

/-- C6 (confirmed): on any day list whose start times all parse, sorting
succeeds (duplicates included — the key function is total on such lists and
`sorted` never compares elements directly), returns a permutation, and orders
events so that all starts ≥ 5 AM precede all starts in [12 AM, 5 AM), each
group ascending by start time. -/
theorem sort_schedule_five_am_rule (l : List Event)
    (h : ∀ ev ∈ l, (eventKey ev).isSome) :
    ∃ l2, sort_schedule_day l = some l2 ∧ l.Perm l2 ∧
      l2.Pairwise fiveAmOrder := by
  have hall : l.all (fun ev => (eventKey ev).isSome) = true :=
    List.all_eq_true.mpr (fun ev hev => h ev hev)
  refine ⟨l.insertionSort sortLE, by simp [sort_schedule_day, hall],
    (List.perm_insertionSort sortLE l).symm, ?_⟩
  have hs : (l.insertionSort sortLE).Pairwise sortLE :=
    List.sorted_insertionSort sortLE l
  refine List.Pairwise.imp_of_mem ?_ hs
  intro a b ha hb hab
  have ha' : a ∈ l := (List.perm_insertionSort sortLE l).mem_iff.mp ha
  have hb' : b ∈ l := (List.perm_insertionSort sortLE l).mem_iff.mp hb
  have key : ∀ ev ∈ l, eventKeyD ev = adjKey (rawStart ev) ∧
      rawStart ev < 1440 := by
    intro ev hev
    obtain ⟨m, hm⟩ := Option.isSome_iff_exists.mp (h ev hev)
    obtain ⟨m0, hm0, hm0'⟩ := Option.map_eq_some'.mp hm
    constructor
    · simp [eventKeyD, eventKey, hm0, rawStart]
    · simpa [rawStart, hm0] using parseTime12_lt hm0
  obtain ⟨hka, hba⟩ := key a ha'
  obtain ⟨hkb, hbb⟩ := key b hb'
  have hab' : adjKey (rawStart a) ≤ adjKey (rawStart b) := by
    rw [← hka, ← hkb]; exact hab
  unfold fiveAmOrder pre5
  unfold adjKey at hab'
  split_ifs at hab' <;> omega

/-- Witness for `sort_schedule_five_am_rule`: a list with duplicate starts and
a post-midnight event sorts successfully, the duplicates kept and the 1 AM
event placed last. -/
theorem sort_schedule_five_am_rule_witness :
    sort_schedule_day
        [⟨"6:00 AM - 7:00 AM", "B"⟩, ⟨"5:30 AM - 6:00 AM", "A"⟩,
          ⟨"5:30 AM - 6:00 AM", "A2"⟩, ⟨"1:00 AM - 2:00 AM", "C"⟩]
      = some [⟨"5:30 AM - 6:00 AM", "A"⟩, ⟨"5:30 AM - 6:00 AM", "A2"⟩,
          ⟨"6:00 AM - 7:00 AM", "B"⟩, ⟨"1:00 AM - 2:00 AM", "C"⟩] ∧
    List.Pairwise fiveAmOrder
      [Event.mk "5:30 AM - 6:00 AM" "A", Event.mk "5:30 AM - 6:00 AM" "A2",
        Event.mk "6:00 AM - 7:00 AM" "B", Event.mk "1:00 AM - 2:00 AM" "C"] := by
  constructor
  · decide
  · obtain ⟨l2, h1, _, h3⟩ := sort_schedule_five_am_rule
      [⟨"6:00 AM - 7:00 AM", "B"⟩, ⟨"5:30 AM - 6:00 AM", "A"⟩,
        ⟨"5:30 AM - 6:00 AM", "A2"⟩, ⟨"1:00 AM - 2:00 AM", "C"⟩]
      (by decide)
    have h4 : sort_schedule_day
        [⟨"6:00 AM - 7:00 AM", "B"⟩, ⟨"5:30 AM - 6:00 AM", "A"⟩,
          ⟨"5:30 AM - 6:00 AM", "A2"⟩, ⟨"1:00 AM - 2:00 AM", "C"⟩]
        = some [Event.mk "5:30 AM - 6:00 AM" "A", Event.mk "5:30 AM - 6:00 AM" "A2",
            Event.mk "6:00 AM - 7:00 AM" "B", Event.mk "1:00 AM - 2:00 AM" "C"] := by
      decide
    rw [h1] at h4
    obtain rfl := Option.some.inj h4
    exact h3

/-! ### Claim C9, on `adjust_schedule` -/

/-- C9 (counterexample): Monday's `9:00 AM` event has no end time, is not the
day's last/bedtime event in spirit (it is not labeled `bedtime`), and the next
day's first start (`8:00 AM`) exists — yet schedule adjustment assigns it the
end `10:00 AM` (one hour after its start, duration 1.0), not an end derived
from the next day's first start, and no 24-hour constant is involved. -/
theorem adjust_schedule_no_end_counterexample :
    adjust_schedule [] [("Monday", [⟨"9:00 AM", "X"⟩]),
        ("Tuesday", [⟨"8:00 AM - 9:00 AM", "Y"⟩])]
      = some [("Monday", [("9:00 AM", "10:00 AM", "X")]),
        ("Tuesday", [("8:00 AM", "9:00 AM", "Y")])] ∧
    get_next_day_start_time [("Monday", [⟨"9:00 AM", "X"⟩]),
        ("Tuesday", [⟨"8:00 AM - 9:00 AM", "Y"⟩])] "Monday"
      = some "8:00 AM" ∧
    ("10:00 AM" : String) ≠ "8:00 AM" ∧
    calculate_duration "9:00 AM" "10:00 AM" = some 1 ∧
    (1 : ℚ) ≠ 24 := by
  refine ⟨by decide, by decide, by decide, ?_, by norm_num⟩
  unfold calculate_duration
  rw [show parseTime12 "9:00 AM" = some 540 from by decide,
    show parseTime12 "10:00 AM" = some 600 from by decide]
  norm_num [round2, round_eq]

/-- C9 (amended): in `adjust_schedule`, an event with no end time whose label
is NOT `bedtime` is assigned the end `start + 1 hour` (the next-day fallback
never applies to it); the next-day-first-start fallback — with default
`"5:00 AM"`, not a 24-hour constant — applies exactly to the end-less events
labeled `bedtime`. -/
theorem adjust_schedule_no_end_amended :
    (∀ (schedule : List (String × List Event)) (day : String) (ev : Event)
        (t0 : String) (m : Nat),
      (splitOnStr ev.time "-").map stripStr = [t0] →
      lowerStr ev.label ≠ "bedtime" →
      parseTime12 t0 = some m →
      adjust_day_entry schedule day ev
        = some (t0, format12 ((m + 60) % 1440), ev.label)) ∧
    (∀ (schedule : List (String × List Event)) (day : String) (ev : Event)
        (t0 : String),
      (splitOnStr ev.time "-").map stripStr = [t0] →
      lowerStr ev.label = "bedtime" →
      adjust_day_entry schedule day ev
        = some (t0, orFiveAM (get_next_day_start_time schedule day),
            ev.label)) := by
  constructor
  · intro schedule day ev t0 m hsplit hlbl hm
    simp only [adjust_day_entry, hsplit, if_neg hlbl, hm]
  · intro schedule day ev t0 hsplit hlbl
    simp only [adjust_day_entry, hsplit, if_pos hlbl]

/-- Witness for `adjust_schedule_no_end_amended`: a plain end-less event gets
`start + 1h`; an end-less bedtime event gets the next day's first start. -/
theorem adjust_schedule_no_end_amended_witness :
    adjust_day_entry [] "Monday" ⟨"9:00 AM", "X"⟩
      = some ("9:00 AM", "10:00 AM", "X") ∧
    adjust_day_entry [("Tuesday", [⟨"7:30 AM - 8:00 AM", "Z"⟩])] "Monday"
        ⟨"10:45 PM", "Bedtime"⟩
      = some ("10:45 PM", "7:30 AM", "Bedtime") := by
  constructor
  · have h := adjust_schedule_no_end_amended.1 [] "Monday"
      (Event.mk "9:00 AM" "X") "9:00 AM" 540 (by decide) (by decide) (by decide)
    rw [h]
    decide
  · have h := adjust_schedule_no_end_amended.2
      [("Tuesday", [Event.mk "7:30 AM - 8:00 AM" "Z"])] "Monday"
      (Event.mk "10:45 PM" "Bedtime") "10:45 PM" (by decide) (by decide)
    rw [h]
    decide

/-! ### Claim C7, on the sharing created by `expand_schedule` -/

/-- C7 (code bug): `expand_schedule` copies an alias template with `list(...)`
(line 403, commented "Ensure a deep copy"), which duplicates only the outer
list.  Expanding a schedule where Monday and Wednesday both reference the "MW"
template and then rewriting the time of Monday's (only) expanded event in
place — exactly what `check_for_overlap` does with
`schedule[day][i][0] = ...` — also rewrites Wednesday's expanded event and the
stored template, because all three lists share the same event cell. -/
theorem expand_schedule_shallow_copy_bug :
    (let cells0 : List Event := [⟨"9:00 AM - 10:00 AM", "A"⟩]
     let aliases := [("MW", ["Monday", "Wednesday"])]
     let sched0 : List (String × RDayVal) :=
       [("MW", .lst [0]), ("Monday", .ref "MW"), ("Wednesday", .ref "MW")]
     let out := expand_schedule_refs aliases sched0
     let cells1 := writeTimeAt cells0 (lookupD out.1 "Monday") 0
       "11:00 AM - 12:00 PM"
     derefDay cells1 (lookupD out.1 "Wednesday")
         = [⟨"11:00 AM - 12:00 PM", "A"⟩] ∧
       derefDay cells1 (lookupD out.2 "MW")
         = [⟨"11:00 AM - 12:00 PM", "A"⟩]) ∧
    [Event.mk "11:00 AM - 12:00 PM" "A"] ≠ [Event.mk "9:00 AM - 10:00 AM" "A"] := by
  refine ⟨⟨by decide, by decide⟩, by decide⟩

/-! ### Dict-model lemmas (towards claim C8) -/

theorem lookupD_cons {α : Type} (p : String × α) (tl : List (String × α))
    (k : String) :
    lookupD (p :: tl) k = if p.1 == k then some p.2 else lookupD tl k := by
  by_cases hp : p.1 == k <;> simp [lookupD, List.find?, hp]

theorem lookupD_setD_self {α : Type} (m : List (String × α)) (k : String)
    (v : α) : lookupD (setD m k v) k = some v := by
  induction m with
  | nil => simp [setD, lookupD_cons]
  | cons p tl ih =>
    by_cases hp : p.1 == k
    · simp [setD, hp, lookupD_cons]
    · simp [setD, hp, lookupD_cons, ih]

theorem lookupD_setD_ne {α : Type} (m : List (String × α)) (k k' : String)
    (v : α) (h : k' ≠ k) : lookupD (setD m k v) k' = lookupD m k' := by
  have hkk' : (k == k') = false := by simpa using (Ne.symm h)
  induction m with
  | nil => simp [setD, lookupD_cons, hkk', lookupD]
  | cons p tl ih =>
    by_cases hp : p.1 == k
    · have hpk : p.1 = k := by simpa using hp
      simp [setD, hp, lookupD_cons, hkk', hpk]
    · by_cases hp' : p.1 == k'
      · simp [setD, hp, lookupD_cons, hp']
      · simp [setD, hp, lookupD_cons, hp', ih]

theorem mem_keys_setD {α : Type} (m : List (String × α)) (k : String) (v : α)
    (x : String) (h : x ∈ (setD m k v).map Prod.fst) :
    x ∈ m.map Prod.fst ∨ x = k := by
  induction m with
  | nil => simpa [setD] using h
  | cons p tl ih =>
    by_cases hp : p.1 == k
    · simp only [setD, hp, if_pos] at h
      have hpk : p.1 = k := by simpa using hp
      rcases (by simpa using h : x = k ∨ x ∈ tl.map Prod.fst) with h1 | h1
      · exact Or.inr h1
      · exact Or.inl (by simp [h1])
    · simp only [setD, hp] at h
      rcases (by simpa using h : x = p.1 ∨ x ∈ (setD tl k v).map Prod.fst)
        with h1 | h1
      · exact Or.inl (by simp [h1])
      · rcases ih h1 with h2 | h2
        · exact Or.inl (by simp [h2])
        · exact Or.inr h2

theorem setD_keys_nodup {α : Type} (m : List (String × α)) (k : String)
    (v : α) (h : (m.map Prod.fst).Nodup) :
    ((setD m k v).map Prod.fst).Nodup := by
  induction m with
  | nil => simp [setD]
  | cons p tl ih =>
    simp only [List.map_cons, List.nodup_cons] at h
    by_cases hp : p.1 == k
    · have hpk : p.1 = k := by simpa using hp
      rw [show setD (p :: tl) k v = (k, v) :: tl from by simp [setD, hp]]
      simp only [List.map_cons, List.nodup_cons]
      exact ⟨by rw [← hpk]; exact h.1, h.2⟩
    · rw [show setD (p :: tl) k v = p :: setD tl k v from by simp [setD, hp]]
      simp only [List.map_cons, List.nodup_cons]
      refine ⟨?_, ih h.2⟩
      intro hc
      rcases mem_keys_setD tl k v p.1 hc with h1 | h1
      · exact h.1 h1
      · exact absurd h1 (by simpa using hp)

theorem mem_of_lookupD {α : Type} {m : List (String × α)} {k : String}
    {v : α} (h : lookupD m k = some v) : (k, v) ∈ m := by
  induction m with
  | nil => exact absurd h (by simp [lookupD, List.find?])
  | cons p tl ih =>
    rw [lookupD_cons] at h
    by_cases hp : p.1 == k
    · rw [if_pos hp] at h
      have hpk : p.1 = k := by simpa using hp
      have hv : p.2 = v := by simpa using h
      have hkv : (k, v) = p := by
        cases p
        simp_all
      rw [hkv]
      exact List.mem_cons_self p tl
    · rw [if_neg hp] at h
      exact List.mem_cons_of_mem p (ih h)

theorem lookupD_isSome_of_mem {α : Type} {m : List (String × α)}
    {q : String × α} (h : q ∈ m) : (lookupD m q.1).isSome := by
  induction m with
  | nil => simp at h
  | cons p tl ih =>
    rw [lookupD_cons]
    by_cases hp : p.1 == q.1
    · simp [hp]
    · rcases List.mem_cons.mp h with rfl | h1
      · simp at hp
      · simpa [hp] using ih h1

/-! ### Loop lemmas for the template-refresh and expansion folds -/

theorem restore_step_nil (exp s : List (String × DayVal))
    (p : String × List String) (h : p.2 = []) :
    restore_step exp s p = none := by
  unfold restore_step
  rw [h]
  simp

theorem restore_step_cons_some (exp s : List (String × DayVal))
    (p : String × List String) (d0 : String) (tl : List String) (v : DayVal)
    (h : p.2 = d0 :: tl)
    (hc : ((d0 :: tl).all fun d => (lookupD exp d).isSome) = true)
    (hv : lookupD exp d0 = some v) :
    restore_step exp s p = some (setD s p.1 v) := by
  unfold restore_step
  rw [h]
  simp [hc, hv]

theorem restore_step_skip (exp s : List (String × DayVal))
    (p : String × List String)
    (hc : ¬ (p.2.all fun d => (lookupD exp d).isSome) = true) :
    restore_step exp s p = some s := by
  unfold restore_step
  rw [if_neg hc]
  rfl

theorem restore_step_lookup_ne (exp s s1 : List (String × DayVal))
    (p : String × List String) (k : String) (hk : k ≠ p.1)
    (h : restore_step exp s p = some s1) : lookupD s1 k = lookupD s k := by
  unfold restore_step at h
  split at h
  · split at h
    · exact absurd h (by simp)
    · split at h
      next v hv =>
        have hs1 : setD s p.1 v = s1 := by simpa using h
        rw [← hs1]
        exact lookupD_setD_ne s p.1 k v hk
      next hv => exact absurd h (by simp)
  · have hs1 : s = s1 := by simpa using h
    rw [← hs1]

theorem restore_step_nodup (exp s s1 : List (String × DayVal))
    (p : String × List String) (h : restore_step exp s p = some s1)
    (hnd : (s.map Prod.fst).Nodup) : (s1.map Prod.fst).Nodup := by
  unfold restore_step at h
  split at h
  · split at h
    · exact absurd h (by simp)
    · split at h
      next v hv =>
        have hs1 : setD s p.1 v = s1 := by simpa using h
        rw [← hs1]
        exact setD_keys_nodup s p.1 v hnd
      next hv => exact absurd h (by simp)
  · have hs1 : s = s1 := by simpa using h
    rw [← hs1]
    exact hnd

theorem restore_templates_some (aliases : List (String × List String))
    (exp : List (String × DayVal)) (hne : ∀ p ∈ aliases, p.2 ≠ []) :
    ∀ s, ∃ s', restore_templates aliases exp s = some s' := by
  induction aliases with
  | nil => exact fun s => ⟨s, rfl⟩
  | cons p ps ih =>
    intro s
    have hstep : ∃ s1, restore_step exp s p = some s1 := by
      unfold restore_step
      rcases hmb : p.2 with _ | ⟨d0, tl⟩
      · exact absurd hmb (hne p (List.mem_cons_self p ps))
      · by_cases hc : (d0 :: tl).all (fun d => (lookupD exp d).isSome)
        · have hd0 : (lookupD exp d0).isSome :=
            List.all_eq_true.mp hc d0 (List.mem_cons_self _ _)
          obtain ⟨v, hv⟩ := Option.isSome_iff_exists.mp hd0
          exact ⟨setD s p.1 v, by simp [hc, hv]⟩
        · exact ⟨s, by simp [hc]⟩
    obtain ⟨s1, hs1⟩ := hstep
    obtain ⟨s', hs'⟩ := ih (fun q hq => hne q (List.mem_cons_of_mem p hq)) s1
    refine ⟨s', ?_⟩
    unfold restore_templates at hs' ⊢
    rw [List.foldlM_cons, hs1]
    simpa using hs'

theorem restore_templates_lookup_notin (exp : List (String × DayVal))
    (k : String) :
    ∀ (aliases : List (String × List String)) (s s' : List (String × DayVal)),
      (∀ p ∈ aliases, k ≠ p.1) →
      restore_templates aliases exp s = some s' →
      lookupD s' k = lookupD s k := by
  intro aliases
  induction aliases with
  | nil =>
    intro s s' _ h
    have : s = s' := by simpa [restore_templates] using h
    rw [this]
  | cons p ps ih =>
    intro s s' hk h
    unfold restore_templates at h
    rw [List.foldlM_cons] at h
    cases hstep : restore_step exp s p with
    | none => rw [hstep] at h; exact absurd h (by simp)
    | some s1 =>
      rw [hstep] at h
      have h2 : restore_templates ps exp s1 = some s' := by
        unfold restore_templates
        simpa using h
      rw [ih s1 s' (fun q hq => hk q (List.mem_cons_of_mem p hq)) h2]
      exact restore_step_lookup_ne exp s s1 p k (hk p (List.mem_cons_self p ps))
        hstep

theorem restore_templates_nodup (exp : List (String × DayVal)) :
    ∀ (aliases : List (String × List String)) (s s' : List (String × DayVal)),
      restore_templates aliases exp s = some s' →
      (s.map Prod.fst).Nodup → (s'.map Prod.fst).Nodup := by
  intro aliases
  induction aliases with
  | nil =>
    intro s s' h hnd
    have : s = s' := by simpa [restore_templates] using h
    rwa [← this]
  | cons p ps ih =>
    intro s s' h hnd
    unfold restore_templates at h
    rw [List.foldlM_cons] at h
    cases hstep : restore_step exp s p with
    | none => rw [hstep] at h; exact absurd h (by simp)
    | some s1 =>
      rw [hstep] at h
      have h2 : restore_templates ps exp s1 = some s' := by
        unfold restore_templates
        simpa using h
      exact ih s1 s' h2 (restore_step_nodup exp s s1 p hstep hnd)

theorem restore_templates_lookup_alias (exp : List (String × DayVal)) :
    ∀ (aliases : List (String × List String)) (s s' : List (String × DayVal))
      (B : String) (mb : List String),
      (aliases.map Prod.fst).Nodup → (B, mb) ∈ aliases →
      restore_templates aliases exp s = some s' →
      lookupD s' B = lookupD s B ∨
        ∃ d0 tl, mb = d0 :: tl ∧ lookupD s' B = lookupD exp d0 ∧
          mb.all (fun d => (lookupD exp d).isSome) = true := by
  intro aliases
  induction aliases with
  | nil =>
    intro s s' B mb _ hmem
    simp at hmem
  | cons p ps ih =>
    intro s s' B mb hnd hmem hr
    unfold restore_templates at hr
    rw [List.foldlM_cons] at hr
    cases hstep : restore_step exp s p with
    | none => rw [hstep] at hr; exact absurd hr (by simp)
    | some s1 =>
      rw [hstep] at hr
      have hr2 : restore_templates ps exp s1 = some s' := by
        unfold restore_templates
        simpa using hr
      rw [List.map_cons] at hnd
      have hnd' := List.nodup_cons.mp hnd
      rcases List.mem_cons.mp hmem with heq | hmem'
      · -- p is the alias (B, mb)
        have hp1 : p.1 = B := by rw [← heq]
        have hp2 : p.2 = mb := by rw [← heq]
        have hBnotin : ∀ q ∈ ps, B ≠ q.1 := by
          intro q hq hBq
          exact hnd'.1 (hp1 ▸ hBq ▸ List.mem_map_of_mem Prod.fst hq)
        have hpres : lookupD s' B = lookupD s1 B :=
          restore_templates_lookup_notin exp B ps s1 s' hBnotin hr2
        cases mb with
        | nil =>
          rw [restore_step_nil exp s p hp2] at hstep
          exact absurd hstep (by simp)
        | cons d0 tl =>
          by_cases hc : ((d0 :: tl).all fun d => (lookupD exp d).isSome) = true
          · have hd0 : (lookupD exp d0).isSome :=
              List.all_eq_true.mp hc d0 (List.mem_cons_self _ _)
            obtain ⟨v, hv⟩ := Option.isSome_iff_exists.mp hd0
            rw [restore_step_cons_some exp s p d0 tl v hp2 hc hv] at hstep
            have hs1 : setD s p.1 v = s1 := by simpa using hstep
            right
            refine ⟨d0, tl, rfl, ?_, hc⟩
            rw [hpres, ← hs1, hp1, lookupD_setD_self, hv]
          · rw [restore_step_skip exp s p (by rw [hp2]; exact hc)] at hstep
            have hs1 : s = s1 := by simpa using hstep
            left
            rw [hpres, ← hs1]
      · -- (B, mb) occurs further on
        have hpB : B ≠ p.1 := by
          intro hB
          exact hnd'.1 (hB ▸ List.mem_map_of_mem Prod.fst hmem')
        have hstep' : lookupD s1 B = lookupD s B :=
          restore_step_lookup_ne exp s s1 p B hpB hstep
        rcases ih s1 s' B mb hnd'.2 hmem' hr2 with h1 | h1
        · left
          rw [h1, hstep']
        · right
          exact h1

theorem ensure_templates_lookup_notin (sched : List (String × DayVal))
    (k : String) :
    ∀ (aliases : List (String × List String)) (exp : List (String × DayVal)),
      (∀ p ∈ aliases, k ≠ p.1) →
      lookupD (ensure_templates aliases sched exp) k = lookupD exp k := by
  intro aliases
  induction aliases with
  | nil => intro exp _; rfl
  | cons p ps ih =>
    intro exp hk
    unfold ensure_templates
    rw [List.foldl_cons]
    have h1 : lookupD (ensure_step sched exp p) k = lookupD exp k := by
      unfold ensure_step
      cases hv : lookupD sched p.1 with
      | none => rfl
      | some v =>
        show lookupD
          (if (lookupD exp p.1).isNone = true then setD exp p.1 v else exp) k
          = lookupD exp k
        by_cases hn : (lookupD exp p.1).isNone
        · rw [if_pos hn]
          exact lookupD_setD_ne exp p.1 k v (hk p (List.mem_cons_self p ps))
        · rw [if_neg hn]
    have h2 := ih (ensure_step sched exp p)
      (fun q hq => hk q (List.mem_cons_of_mem p hq))
    unfold ensure_templates at h2
    rw [h2, h1]

/-- Value that the expansion loop records for a non-alias day, as a function
of its raw value. -/
def expandVal (aliases : List (String × List String))
    (m : List (String × DayVal)) : DayVal → DayVal
  | .ref a => if alias_key aliases a then .evs ((get_tasks m a).getD [])
      else .ref a
  | .evs l => .evs l

theorem expand_step_alias (aliases : List (String × List String))
    (m acc : List (String × DayVal)) (p : String × DayVal)
    (ha : alias_key aliases p.1 = true) :
    expand_step aliases m acc p = some acc := by
  unfold expand_step
  rw [if_pos ha]
  rfl

theorem expand_step_evs (aliases : List (String × List String))
    (m acc : List (String × DayVal)) (p : String × DayVal) (l : List Event)
    (ha : alias_key aliases p.1 = false) (hv : p.2 = .evs l) :
    expand_step aliases m acc p = some (setD acc p.1 (.evs l)) := by
  unfold expand_step
  rw [hv]
  simp [ha]

theorem expand_step_ref_alias (aliases : List (String × List String))
    (m acc : List (String × DayVal)) (p : String × DayVal) (a : String)
    (tl : List Event) (ha : alias_key aliases p.1 = false) (hv : p.2 = .ref a)
    (hs : alias_key aliases a = true) (htl : get_tasks m a = some tl) :
    expand_step aliases m acc p = some (setD acc p.1 (.evs tl)) := by
  unfold expand_step
  rw [hv]
  simp [ha, hs, htl]

theorem expand_step_ref_alias_none (aliases : List (String × List String))
    (m acc : List (String × DayVal)) (p : String × DayVal) (a : String)
    (ha : alias_key aliases p.1 = false) (hv : p.2 = .ref a)
    (hs : alias_key aliases a = true) (htl : get_tasks m a = none) :
    expand_step aliases m acc p = none := by
  unfold expand_step
  rw [hv]
  simp [ha, hs, htl]

theorem expand_step_ref_nonalias (aliases : List (String × List String))
    (m acc : List (String × DayVal)) (p : String × DayVal) (a : String)
    (ha : alias_key aliases p.1 = false) (hv : p.2 = .ref a)
    (hs : alias_key aliases a = false) :
    expand_step aliases m acc p = some (setD acc p.1 (.ref a)) := by
  unfold expand_step
  rw [hv]
  simp [ha, hs]

theorem expand_step_lookup_ne (aliases : List (String × List String))
    (m acc acc1 : List (String × DayVal)) (p : String × DayVal) (k : String)
    (hk : k ≠ p.1) (h : expand_step aliases m acc p = some acc1) :
    lookupD acc1 k = lookupD acc k := by
  by_cases ha : alias_key aliases p.1
  · rw [expand_step_alias aliases m acc p ha] at h
    have : acc = acc1 := by simpa using h
    rw [← this]
  · have ha' : alias_key aliases p.1 = false := by simpa using ha
    rcases hv : p.2 with a | l
    · by_cases hs : alias_key aliases a
      · cases htl : get_tasks m a with
        | none =>
          rw [expand_step_ref_alias_none aliases m acc p a ha' hv
            (by simpa using hs) htl] at h
          exact absurd h (by simp)
        | some tl =>
          rw [expand_step_ref_alias aliases m acc p a tl ha' hv
            (by simpa using hs) htl] at h
          have : setD acc p.1 (.evs tl) = acc1 := by simpa using h
          rw [← this]
          exact lookupD_setD_ne acc p.1 k _ hk
      · rw [expand_step_ref_nonalias aliases m acc p a ha' hv
          (by simpa using hs)] at h
        have : setD acc p.1 (.ref a) = acc1 := by simpa using h
        rw [← this]
        exact lookupD_setD_ne acc p.1 k _ hk
    · rw [expand_step_evs aliases m acc p l ha' hv] at h
      have : setD acc p.1 (.evs l) = acc1 := by simpa using h
      rw [← this]
      exact lookupD_setD_ne acc p.1 k _ hk

theorem expand_step_spec (aliases : List (String × List String))
    (m acc acc1 : List (String × DayVal)) (p : String × DayVal)
    (ha : alias_key aliases p.1 = false)
    (h : expand_step aliases m acc p = some acc1) :
    lookupD acc1 p.1 = some (expandVal aliases m p.2) := by
  rcases hv : p.2 with a | l
  · by_cases hs : alias_key aliases a
    · have hs' : alias_key aliases a = true := by simpa using hs
      cases htl : get_tasks m a with
      | none =>
        rw [expand_step_ref_alias_none aliases m acc p a ha hv hs' htl] at h
        exact absurd h (by simp)
      | some tl =>
        rw [expand_step_ref_alias aliases m acc p a tl ha hv hs' htl] at h
        have : setD acc p.1 (.evs tl) = acc1 := by simpa using h
        rw [← this, lookupD_setD_self]
        simp [expandVal, hs', htl]
    · have hs' : alias_key aliases a = false := by simpa using hs
      rw [expand_step_ref_nonalias aliases m acc p a ha hv hs'] at h
      have : setD acc p.1 (.ref a) = acc1 := by simpa using h
      rw [← this, lookupD_setD_self]
      simp [expandVal, hs']
  · rw [expand_step_evs aliases m acc p l ha hv] at h
    have : setD acc p.1 (.evs l) = acc1 := by simpa using h
    rw [← this, lookupD_setD_self]
    simp [expandVal]

theorem expand_step_total (aliases : List (String × List String))
    (m acc : List (String × DayVal)) (p : String × DayVal)
    (hok : alias_key aliases p.1 = false → ∀ a, p.2 = .ref a →
      alias_key aliases a = true → get_tasks m a ≠ none) :
    ∃ acc1, expand_step aliases m acc p = some acc1 := by
  by_cases ha : alias_key aliases p.1
  · exact ⟨acc, expand_step_alias aliases m acc p ha⟩
  · have ha' : alias_key aliases p.1 = false := by simpa using ha
    rcases hv : p.2 with a | l
    · by_cases hs : alias_key aliases a
      · have hs' : alias_key aliases a = true := by simpa using hs
        cases htl : get_tasks m a with
        | none => exact absurd htl (hok ha' a hv hs')
        | some tl =>
          exact ⟨setD acc p.1 (.evs tl),
            expand_step_ref_alias aliases m acc p a tl ha' hv hs' htl⟩
      · exact ⟨setD acc p.1 (.ref a),
          expand_step_ref_nonalias aliases m acc p a ha' hv (by simpa using hs)⟩
    · exact ⟨setD acc p.1 (.evs l), expand_step_evs aliases m acc p l ha' hv⟩

theorem expand_foldlM_lookup_notin (aliases : List (String × List String))
    (m : List (String × DayVal)) (k : String) :
    ∀ (rest : List (String × DayVal)) (acc exp : List (String × DayVal)),
      (∀ q ∈ rest, q.1 ≠ k) →
      rest.foldlM (expand_step aliases m) acc = some exp →
      lookupD exp k = lookupD acc k := by
  intro rest
  induction rest with
  | nil =>
    intro acc exp _ h
    have : acc = exp := by simpa using h
    rw [← this]
  | cons q rest ih =>
    intro acc exp hk h
    rw [List.foldlM_cons] at h
    cases hstep : expand_step aliases m acc q with
    | none => rw [hstep] at h; exact absurd h (by simp)
    | some acc1 =>
      rw [hstep] at h
      have h2 : rest.foldlM (expand_step aliases m) acc1 = some exp := by
        simpa using h
      rw [ih acc1 exp (fun q' hq' => hk q' (List.mem_cons_of_mem q hq')) h2]
      exact expand_step_lookup_ne aliases m acc acc1 q k
        (Ne.symm (hk q (List.mem_cons_self q rest))) hstep

theorem expand_foldlM_spec (aliases : List (String × List String))
    (m : List (String × DayVal)) :
    ∀ (rest : List (String × DayVal)) (acc exp : List (String × DayVal)),
      (rest.map Prod.fst).Nodup →
      rest.foldlM (expand_step aliases m) acc = some exp →
      ∀ q ∈ rest, alias_key aliases q.1 = false →
        lookupD exp q.1 = some (expandVal aliases m q.2) := by
  intro rest
  induction rest with
  | nil => intro acc exp _ _ q hq; simp at hq
  | cons q0 rest ih =>
    intro acc exp hnd h q hq ha
    rw [List.foldlM_cons] at h
    cases hstep : expand_step aliases m acc q0 with
    | none => rw [hstep] at h; exact absurd h (by simp)
    | some acc1 =>
      rw [hstep] at h
      have h2 : rest.foldlM (expand_step aliases m) acc1 = some exp := by
        simpa using h
      rw [List.map_cons] at hnd
      have hnd' := List.nodup_cons.mp hnd
      rcases List.mem_cons.mp hq with rfl | hq'
      · have hkeys : ∀ q' ∈ rest, q'.1 ≠ q.1 := by
          intro q' hq' hc
          exact hnd'.1 (hc ▸ List.mem_map_of_mem Prod.fst hq')
        rw [expand_foldlM_lookup_notin aliases m q.1 rest acc1 exp hkeys h2]
        exact expand_step_spec aliases m acc acc1 q ha hstep
      · exact ih acc1 exp hnd'.2 h2 q hq' ha

theorem expand_foldlM_total (aliases : List (String × List String))
    (m : List (String × DayVal)) :
    ∀ (rest : List (String × DayVal)) (acc : List (String × DayVal)),
      (∀ q ∈ rest, alias_key aliases q.1 = false → ∀ a, q.2 = .ref a →
        alias_key aliases a = true → get_tasks m a ≠ none) →
      ∃ exp, rest.foldlM (expand_step aliases m) acc = some exp := by
  intro rest
  induction rest with
  | nil => intro acc _; exact ⟨acc, rfl⟩
  | cons q rest ih =>
    intro acc hok
    obtain ⟨acc1, hstep⟩ := expand_step_total aliases m acc q
      (hok q (List.mem_cons_self q rest))
    obtain ⟨exp, hexp⟩ := ih acc1
      (fun q' hq' => hok q' (List.mem_cons_of_mem q hq'))
    refine ⟨exp, ?_⟩
    rw [List.foldlM_cons, hstep]
    simpa using hexp

/-! ### Claim C8, on the alias-template refresh -/

/-- The standard document configuration (spec interface, section 6): dict keys
unique, alias groups nonempty and named uniquely, every member day of an alias
group stores the alias-name string, every alias key stores a real event list,
and member days are not themselves alias names. -/
def GoodConfig (aliases : List (String × List String))
    (sched : List (String × DayVal)) : Prop :=
  (sched.map Prod.fst).Nodup ∧
  (aliases.map Prod.fst).Nodup ∧
  (∀ p ∈ aliases, p.2 ≠ []) ∧
  (∀ p ∈ aliases, ∀ d ∈ p.2, lookupD sched d = some (.ref p.1)) ∧
  (∀ p ∈ aliases, ∃ t, lookupD sched p.1 = some (.evs t)) ∧
  (∀ p ∈ aliases, ∀ d ∈ p.2, alias_key aliases d = false)

theorem not_alias_key (aliases : List (String × List String)) (d : String)
    (h : alias_key aliases d = false) : ∀ p ∈ aliases, d ≠ p.1 := by
  intro p hp hc
  have : alias_key aliases d = true :=
    List.any_eq_true.mpr ⟨p, hp, by simp [hc]⟩
  rw [h] at this
  exact absurd this (by simp)

theorem alias_key_of_mem (aliases : List (String × List String)) (B : String)
    (mb : List String) (h : (B, mb) ∈ aliases) :
    alias_key aliases B = true :=
  List.any_eq_true.mpr ⟨(B, mb), h, by simp⟩

/-- Inside a `GoodConfig` schedule, the expansion records a plain event list
for every member day of every alias group. -/
theorem exp0_member_evs (aliases : List (String × List String))
    (sched exp0 : List (String × DayVal))
    (hnd : (sched.map Prod.fst).Nodup)
    (hmem : ∀ p ∈ aliases, ∀ d ∈ p.2, lookupD sched d = some (.ref p.1))
    (hsep : ∀ p ∈ aliases, ∀ d ∈ p.2, alias_key aliases d = false)
    (hfold : expand_fold aliases sched = some exp0)
    (B : String) (mb : List String) (hBm : (B, mb) ∈ aliases)
    (d0 : String) (hd0 : d0 ∈ mb) :
    ∃ l, lookupD exp0 d0 = some (.evs l) := by
  have href : lookupD sched d0 = some (.ref B) := hmem (B, mb) hBm d0 hd0
  have hentry : (d0, DayVal.ref B) ∈ sched := mem_of_lookupD href
  have hspec := expand_foldlM_spec aliases sched sched [] exp0 hnd hfold
    (d0, .ref B) hentry (hsep (B, mb) hBm d0 hd0)
  have haB : alias_key aliases B = true := alias_key_of_mem aliases B mb hBm
  refine ⟨(get_tasks sched B).getD [], ?_⟩
  rw [hspec]
  simp [expandVal, haB]

/-- Facts about the document the add/update pipeline persists: keys stay
unique, the alias key holds the freshly sorted day list, member days keep
their alias-reference strings, and every alias key a member refers to holds a
plain event list (so re-expanding the written document succeeds). -/
theorem written_doc_facts (aliases : List (String × List String))
    (sched exp0 sched1 expX sched2 : List (String × DayVal))
    (A : String) (final : List Event)
    (hgc : GoodConfig aliases sched)
    (haA : alias_key aliases A = true)
    (hfold : expand_fold aliases sched = some exp0)
    (hrest1 : restore_templates aliases exp0 sched = some sched1)
    (hmemX : ∀ p ∈ aliases, ∀ d ∈ p.2, lookupD expX d = lookupD exp0 d)
    (hrest2 : restore_templates aliases expX sched1 = some sched2) :
    ((setD sched2 A (.evs final)).map Prod.fst).Nodup ∧
    lookupD (setD sched2 A (.evs final)) A = some (.evs final) ∧
    (∀ p ∈ aliases, ∀ d ∈ p.2,
      lookupD (setD sched2 A (.evs final)) d = some (.ref p.1)) ∧
    (∀ q ∈ setD sched2 A (.evs final), alias_key aliases q.1 = false →
      ∀ a, q.2 = .ref a → alias_key aliases a = true →
      get_tasks (setD sched2 A (.evs final)) a ≠ none) := by
  obtain ⟨hndS, hndA, hne, hmem, htmpl, hsep⟩ := hgc
  have hnd1 : (sched1.map Prod.fst).Nodup :=
    restore_templates_nodup exp0 aliases sched sched1 hrest1 hndS
  have hnd2 : (sched2.map Prod.fst).Nodup :=
    restore_templates_nodup expX aliases sched1 sched2 hrest2 hnd1
  have hmemday : ∀ p ∈ aliases, ∀ d ∈ p.2,
      lookupD (setD sched2 A (.evs final)) d = some (.ref p.1) := by
    intro p hp d hd
    have hdna := hsep p hp d hd
    have hdA : d ≠ A := by
      intro hc
      rw [hc] at hdna
      rw [hdna] at haA
      exact absurd haA (by simp)
    rw [lookupD_setD_ne sched2 A d _ hdA,
      restore_templates_lookup_notin expX d aliases sched1 sched2
        (not_alias_key aliases d hdna) hrest2,
      restore_templates_lookup_notin exp0 d aliases sched sched1
        (not_alias_key aliases d hdna) hrest1]
    exact hmem p hp d hd
  -- every alias key in the written document holds an event list (or nothing)
  have haliasval : ∀ a, alias_key aliases a = true →
      lookupD (setD sched2 A (.evs final)) a = none ∨
      ∃ l, lookupD (setD sched2 A (.evs final)) a = some (.evs l) := by
    intro a hsa
    by_cases haAeq : a = A
    · right
      exact ⟨final, by rw [haAeq, lookupD_setD_self]⟩
    · rw [lookupD_setD_ne sched2 A a _ haAeq]
      obtain ⟨p, hp, hpa'⟩ := List.any_eq_true.mp hsa
      have hpa : p.1 = a := by simpa using hpa'
      have hpmem : (a, p.2) ∈ aliases := by
        rw [← hpa]
        simpa using hp
      have hexpXd0 : ∀ d0 ∈ p.2, ∃ l, lookupD expX d0 = some (.evs l) := by
        intro d0 hd0
        obtain ⟨l, hl⟩ := exp0_member_evs aliases sched exp0 hndS hmem hsep
          hfold a p.2 hpmem d0 hd0
        exact ⟨l, by rw [hmemX (a, p.2) hpmem d0 hd0]; exact hl⟩
      rcases restore_templates_lookup_alias expX aliases sched1 sched2 a p.2
          hndA hpmem hrest2 with h1 | ⟨d0, tl, hmb, h1, _⟩
      · -- unchanged by the second refresh: analyze the first one
        rw [h1]
        rcases restore_templates_lookup_alias exp0 aliases sched sched1 a p.2
            hndA hpmem hrest1 with h2 | ⟨d0, tl, hmb, h2, _⟩
        · rw [h2]
          obtain ⟨t, ht⟩ := htmpl (a, p.2) hpmem
          exact Or.inr ⟨t, ht⟩
        · rw [h2]
          obtain ⟨l, hl⟩ := exp0_member_evs aliases sched exp0 hndS hmem hsep
            hfold a p.2 hpmem d0 (by rw [hmb]; exact List.mem_cons_self _ _)
          exact Or.inr ⟨l, hl⟩
      · rw [h1]
        obtain ⟨l, hl⟩ := hexpXd0 d0 (by rw [hmb]; exact List.mem_cons_self _ _)
        exact Or.inr ⟨l, hl⟩
  refine ⟨setD_keys_nodup sched2 A _ hnd2, lookupD_setD_self sched2 A _,
    hmemday, ?_⟩
  intro q _ _ a _ hsa
  rcases haliasval a hsa with h1 | ⟨l, h1⟩
  · simp [get_tasks, h1]
  · simp [get_tasks, h1]

theorem restore_templates_lookup_alias_cond (exp : List (String × DayVal)) :
    ∀ (aliases : List (String × List String)) (s s' : List (String × DayVal))
      (B : String) (mb : List String),
      (aliases.map Prod.fst).Nodup → (B, mb) ∈ aliases →
      restore_templates aliases exp s = some s' →
      (mb.all fun d => (lookupD exp d).isSome) = true →
      ∃ d0 tl, mb = d0 :: tl ∧ lookupD s' B = lookupD exp d0 := by
  intro aliases
  induction aliases with
  | nil =>
    intro s s' B mb _ hmem _ _
    simp at hmem
  | cons p ps ih =>
    intro s s' B mb hnd hmem hr hc
    unfold restore_templates at hr
    rw [List.foldlM_cons] at hr
    cases hstep : restore_step exp s p with
    | none => rw [hstep] at hr; exact absurd hr (by simp)
    | some s1 =>
      rw [hstep] at hr
      have hr2 : restore_templates ps exp s1 = some s' := by
        unfold restore_templates
        simpa using hr
      rw [List.map_cons] at hnd
      have hnd' := List.nodup_cons.mp hnd
      rcases List.mem_cons.mp hmem with heq | hmem'
      · have hp1 : p.1 = B := by rw [← heq]
        have hp2 : p.2 = mb := by rw [← heq]
        have hBnotin : ∀ q ∈ ps, B ≠ q.1 := by
          intro q hq hBq
          exact hnd'.1 (hp1 ▸ hBq ▸ List.mem_map_of_mem Prod.fst hq)
        have hpres : lookupD s' B = lookupD s1 B :=
          restore_templates_lookup_notin exp B ps s1 s' hBnotin hr2
        cases mb with
        | nil =>
          rw [restore_step_nil exp s p hp2] at hstep
          exact absurd hstep (by simp)
        | cons d0 tl =>
          have hd0 : (lookupD exp d0).isSome :=
            List.all_eq_true.mp hc d0 (List.mem_cons_self _ _)
          obtain ⟨v, hv⟩ := Option.isSome_iff_exists.mp hd0
          rw [restore_step_cons_some exp s p d0 tl v hp2 hc hv] at hstep
          have hs1 : setD s p.1 v = s1 := by simpa using hstep
          exact ⟨d0, tl, rfl, by rw [hpres, ← hs1, hp1, lookupD_setD_self, hv]⟩
      · have hpB : B ≠ p.1 := by
          intro hB
          exact hnd'.1 (hB ▸ List.mem_map_of_mem Prod.fst hmem')
        exact ih s1 s' B mb hnd'.2 hmem' hr2 hc

/-- Re-expanding a written document gives every member day of the alias group
the freshly written template list. -/
theorem expand_reflects (aliases : List (String × List String))
    (res : List (String × DayVal)) (A : String) (mapped : List String)
    (f : List Event)
    (hnd : (res.map Prod.fst).Nodup)
    (haA : alias_key aliases A = true)
    (hA : lookupD res A = some (.evs f))
    (hmem : ∀ d ∈ mapped, lookupD res d = some (.ref A))
    (hmemNA : ∀ d ∈ mapped, alias_key aliases d = false)
    (hok : ∀ q ∈ res, alias_key aliases q.1 = false → ∀ a, q.2 = .ref a →
      alias_key aliases a = true → get_tasks res a ≠ none)
    (hne : ∀ p ∈ aliases, p.2 ≠ []) :
    ∃ pr, expand_schedule aliases res = some pr ∧
      ∀ d ∈ mapped, lookupD pr.1 d = some (.evs f) := by
  obtain ⟨exp, hexp⟩ := expand_foldlM_total aliases res res [] hok
  obtain ⟨s2, hs2⟩ := restore_templates_some aliases exp hne res
  refine ⟨(exp, s2), ?_, ?_⟩
  · unfold expand_schedule
    rw [show expand_fold aliases res = some exp from hexp]
    simp [hs2]
  · intro d hd
    have hentry : (d, DayVal.ref A) ∈ res := mem_of_lookupD (hmem d hd)
    have hspec := expand_foldlM_spec aliases res res [] exp hnd hexp
      (d, .ref A) hentry (hmemNA d hd)
    have hg : get_tasks res A = some f := by simp [get_tasks, hA]
    rw [hspec]
    simp [expandVal, haA, hg]

/-- Template consistency of `add_event_to_json`: in a standard configuration,
adding to a member day persists a document whose alias key holds the new day
list, and re-expanding that document hands every member day that list. -/
theorem add_event_template_consistency
    (aliases : List (String × List String)) (sched : List (String × DayVal))
    (day newS newE act A : String) (mapped : List String)
    (res : List (String × DayVal))
    (hgc : GoodConfig aliases sched) (hAm : (A, mapped) ∈ aliases)
    (hres : resolve_alias aliases day = A)
    (h : add_event_to_json aliases sched day newS newE act = .written res) :
    ∃ f pr, lookupD res A = some (.evs f) ∧
      expand_schedule aliases res = some pr ∧
      ∀ d ∈ mapped, lookupD pr.1 d = some (.evs f) := by
  have haA : alias_key aliases A = true := alias_key_of_mem aliases A mapped hAm
  simp only [add_event_to_json, hres] at h
  split at h
  next hexp => exact absurd h (by simp)
  next exp0 sched1 hexp =>
    split at h
    next evs0 hlook =>
      split at h
      next hov => exact absurd h (by simp)
      next evs1 hov =>
        split at h
        next hsort => exact absurd h (by simp)
        next evs3 hsort =>
          split at h
          next hrest2 => exact absurd h (by simp)
          next sched2 hrest2 =>
            have hres2 : setD sched2 A (.evs evs3) = res := by
              simpa using h
            subst hres2
            -- decompose the expansion of the input document
            unfold expand_schedule at hexp
            cases hfold : expand_fold aliases sched with
            | none => rw [hfold] at hexp; exact absurd hexp (by simp)
            | some e0 =>
              rw [hfold] at hexp
              simp only [Option.pure_def, Option.bind_eq_bind,
                Option.some_bind] at hexp
              cases hrest1 : restore_templates aliases e0 sched with
              | none => rw [hrest1] at hexp; exact absurd hexp (by simp)
              | some s1 =>
                rw [hrest1] at hexp
                have hpair : e0 = exp0 ∧ s1 = sched1 := by
                  simpa using hexp
                obtain ⟨rfl, rfl⟩ := hpair
                obtain ⟨hndS, hndA, hne, hmem, htmpl, hsep⟩ := hgc
                have hmemX : ∀ p ∈ aliases, ∀ d ∈ p.2,
                    lookupD (setD
                      (if (lookupD (ensure_templates aliases s1 e0) A).isNone
                        then setD (ensure_templates aliases s1 e0) A (.evs [])
                        else ensure_templates aliases s1 e0)
                      A (.evs evs3)) d = lookupD e0 d := by
                  intro p hp d hd
                  have hdna := hsep p hp d hd
                  have hdA : d ≠ A := by
                    intro hc
                    rw [hc] at hdna
                    rw [hdna] at haA
                    exact absurd haA (by simp)
                  rw [lookupD_setD_ne _ A d _ hdA]
                  by_cases hcc :
                      (lookupD (ensure_templates aliases s1 e0) A).isNone
                  · rw [if_pos hcc, lookupD_setD_ne _ A d _ hdA]
                    exact ensure_templates_lookup_notin s1 d aliases e0
                      (not_alias_key aliases d hdna)
                  · rw [if_neg hcc]
                    exact ensure_templates_lookup_notin s1 d aliases e0
                      (not_alias_key aliases d hdna)
                obtain ⟨hndres, hAres, hmemres, hokres⟩ :=
                  written_doc_facts aliases sched e0 s1 _ sched2 A evs3
                    ⟨hndS, hndA, hne, hmem, htmpl, hsep⟩ haA hfold hrest1
                    hmemX hrest2
                obtain ⟨pr, hpr1, hpr2⟩ := expand_reflects aliases
                  (setD sched2 A (.evs evs3)) A mapped evs3 hndres haA hAres
                  (fun d hd => hmemres (A, mapped) hAm d hd)
                  (fun d hd => hsep (A, mapped) hAm d hd) hokres hne
                exact ⟨evs3, pr, hAres, hpr1, hpr2⟩
    next hlook hne2 => exact absurd h (by simp)

/-- Template consistency of `update_json_schedule`: same contract as
`add_event_template_consistency` for the update pipeline. -/
theorem update_event_template_consistency
    (aliases : List (String × List String)) (sched : List (String × DayVal))
    (day old_start newS newE act A : String) (mapped : List String)
    (res : List (String × DayVal))
    (hgc : GoodConfig aliases sched) (hAm : (A, mapped) ∈ aliases)
    (hres : resolve_alias aliases day = A)
    (h : update_json_schedule aliases sched day old_start newS newE act
      = .written res) :
    ∃ f pr, lookupD res A = some (.evs f) ∧
      expand_schedule aliases res = some pr ∧
      ∀ d ∈ mapped, lookupD pr.1 d = some (.evs f) := by
  have haA : alias_key aliases A = true := alias_key_of_mem aliases A mapped hAm
  simp only [update_json_schedule, hres] at h
  split at h
  next hexp => exact absurd h (by simp)
  next exp0 sched1 hexp =>
    split at h
    next hlook => exact absurd h (by simp)
    next r hlook => exact absurd h (by simp)
    next evs0 hlook =>
      split at h
      next hcore => exact absurd h (by simp)
      next final hcore =>
        split at h
        next hrest2 => exact absurd h (by simp)
        next sched2 hrest2 =>
          have hres2 : setD sched2 A (.evs final) = res := by
            simpa using h
          subst hres2
          unfold expand_schedule at hexp
          cases hfold : expand_fold aliases sched with
          | none => rw [hfold] at hexp; exact absurd hexp (by simp)
          | some e0 =>
            rw [hfold] at hexp
            simp only [Option.pure_def, Option.bind_eq_bind,
              Option.some_bind] at hexp
            cases hrest1 : restore_templates aliases e0 sched with
            | none => rw [hrest1] at hexp; exact absurd hexp (by simp)
            | some s1 =>
              rw [hrest1] at hexp
              have hpair : e0 = exp0 ∧ s1 = sched1 := by
                simpa using hexp
              obtain ⟨rfl, rfl⟩ := hpair
              obtain ⟨hndS, hndA, hne, hmem, htmpl, hsep⟩ := hgc
              have hmemX : ∀ p ∈ aliases, ∀ d ∈ p.2,
                  lookupD (setD (ensure_templates aliases s1 e0) A
                    (.evs final)) d = lookupD e0 d := by
                intro p hp d hd
                have hdna := hsep p hp d hd
                have hdA : d ≠ A := by
                  intro hc
                  rw [hc] at hdna
                  rw [hdna] at haA
                  exact absurd haA (by simp)
                rw [lookupD_setD_ne _ A d _ hdA]
                exact ensure_templates_lookup_notin s1 d aliases e0
                  (not_alias_key aliases d hdna)
              obtain ⟨hndres, hAres, hmemres, hokres⟩ :=
                written_doc_facts aliases sched e0 s1 _ sched2 A final
                  ⟨hndS, hndA, hne, hmem, htmpl, hsep⟩ haA hfold hrest1
                  hmemX hrest2
              obtain ⟨pr, hpr1, hpr2⟩ := expand_reflects aliases
                (setD sched2 A (.evs final)) A mapped final hndres haA hAres
                (fun d hd => hmemres (A, mapped) hAm d hd)
                (fun d hd => hsep (A, mapped) hAm d hd) hokres hne
              exact ⟨final, pr, hAres, hpr1, hpr2⟩

/-- Any successful expansion rewrites each alias key whose member days are all
present in the expansion to the FIRST member day's expanded list. -/
theorem expand_refreshes_template
    (aliases : List (String × List String)) (sched : List (String × DayVal))
    (A : String) (mapped : List String)
    (pr : List (String × DayVal) × List (String × DayVal))
    (hndA : (aliases.map Prod.fst).Nodup) (hAm : (A, mapped) ∈ aliases)
    (hexp : expand_schedule aliases sched = some pr)
    (hall : (mapped.all fun d => (lookupD pr.1 d).isSome) = true) :
    ∃ d0 tl, mapped = d0 :: tl ∧ lookupD pr.2 A = lookupD pr.1 d0 := by
  unfold expand_schedule at hexp
  cases hfold : expand_fold aliases sched with
  | none => rw [hfold] at hexp; exact absurd hexp (by simp)
  | some e0 =>
    rw [hfold] at hexp
    simp only [Option.pure_def, Option.bind_eq_bind, Option.some_bind] at hexp
    cases hrest : restore_templates aliases e0 sched with
    | none => rw [hrest] at hexp; exact absurd hexp (by simp)
    | some s2 =>
      rw [hrest] at hexp
      have hpair : e0 = pr.1 ∧ s2 = pr.2 := by
        cases pr
        simpa using hexp
      obtain ⟨rfl, rfl⟩ := hpair
      exact restore_templates_lookup_alias_cond pr.1 aliases sched pr.2 A
        mapped hndA hAm hrest hall

/-- C8 (counterexample): adding an event to Friday — which is NOT a member of
the "MW" alias group — persists a document whose "MW" template has changed
from `[1:00 PM - 2:00 PM T]` to Monday's diverged list
`[3:00 PM - 4:00 PM M]`: the restore loop rewrites every alias key from its
first member day's expanded value on EVERY operation that expands the
schedule, not only on mutations of a member day. -/
theorem alias_template_rewritten_counterexample :
    add_event_to_json [("MW", ["Monday", "Wednesday"])]
        [("MW", .evs [⟨"1:00 PM - 2:00 PM", "T"⟩]),
          ("Monday", .evs [⟨"3:00 PM - 4:00 PM", "M"⟩]),
          ("Wednesday", .ref "MW"), ("Friday", .evs [])]
        "Friday" "9:00 AM" "10:00 AM" "X"
      = .written [("MW", .evs [⟨"3:00 PM - 4:00 PM", "M"⟩]),
          ("Monday", .evs [⟨"3:00 PM - 4:00 PM", "M"⟩]),
          ("Wednesday", .ref "MW"),
          ("Friday", .evs [⟨"9:00 AM - 10:00 AM", "X"⟩])] ∧
    resolve_alias [("MW", ["Monday", "Wednesday"])] "Friday" = "Friday" ∧
    ("Friday" : String) ≠ "MW" ∧ ("Friday" : String) ≠ "Monday" ∧
    ("Friday" : String) ≠ "Wednesday" ∧
    DayVal.evs [Event.mk "3:00 PM - 4:00 PM" "M"]
      ≠ .evs [⟨"1:00 PM - 2:00 PM", "T"⟩] := by
  refine ⟨by decide, by decide, by decide, by decide, by decide, by decide⟩

/-- C8 (amended): in a standard configuration (member days store the
alias-name string, templates store event lists, keys and alias names unique,
member lists nonempty and disjoint from alias names):
(1) after `add_event_to_json` on a member day of an alias group, the persisted
document stores under the alias key exactly the event list produced for the
resolved day, and re-expanding the document hands every member day that list;
(2) the same holds for `update_json_schedule`;
(3) however, EVERY successful expansion — also one run on a pure read or
before a mutation of an unrelated day — rewrites each alias key (whose member
days are all present in the expansion) to the FIRST member day's expanded
list, so operations that do not mutate a member day can also change the
template (whenever that member's stored list diverges from it). -/
theorem alias_template_refresh_amended :
    (∀ (aliases : List (String × List String))
        (sched : List (String × DayVal)) (day newS newE act A : String)
        (mapped : List String) (res : List (String × DayVal)),
      GoodConfig aliases sched → (A, mapped) ∈ aliases →
      resolve_alias aliases day = A →
      add_event_to_json aliases sched day newS newE act = .written res →
      ∃ f pr, lookupD res A = some (.evs f) ∧
        expand_schedule aliases res = some pr ∧
        ∀ d ∈ mapped, lookupD pr.1 d = some (.evs f)) ∧
    (∀ (aliases : List (String × List String))
        (sched : List (String × DayVal))
        (day old_start newS newE act A : String)
        (mapped : List String) (res : List (String × DayVal)),
      GoodConfig aliases sched → (A, mapped) ∈ aliases →
      resolve_alias aliases day = A →
      update_json_schedule aliases sched day old_start newS newE act
        = .written res →
      ∃ f pr, lookupD res A = some (.evs f) ∧
        expand_schedule aliases res = some pr ∧
        ∀ d ∈ mapped, lookupD pr.1 d = some (.evs f)) ∧
    (∀ (aliases : List (String × List String))
        (sched : List (String × DayVal)) (A : String) (mapped : List String)
        (pr : List (String × DayVal) × List (String × DayVal)),
      (aliases.map Prod.fst).Nodup → (A, mapped) ∈ aliases →
      expand_schedule aliases sched = some pr →
      (mapped.all fun d => (lookupD pr.1 d).isSome) = true →
      ∃ d0 tl, mapped = d0 :: tl ∧ lookupD pr.2 A = lookupD pr.1 d0) :=
  ⟨fun aliases sched day newS newE act A mapped res hgc hAm hres h =>
      add_event_template_consistency aliases sched day newS newE act A mapped
        res hgc hAm hres h,
    fun aliases sched day old_start newS newE act A mapped res hgc hAm hres
        h =>
      update_event_template_consistency aliases sched day old_start newS newE
        act A mapped res hgc hAm hres h,
    fun aliases sched A mapped pr hndA hAm hexp hall =>
      expand_refreshes_template aliases sched A mapped pr hndA hAm hexp hall⟩

/-- Witness for `alias_template_refresh_amended`: a two-member "MW" group;
an add and an update on Monday leave the template equal to Monday's new list
and Wednesday's next expansion picks it up; a plain expansion refreshes the
template from Monday. -/
theorem alias_template_refresh_amended_witness :
    lookupD [("Monday", DayVal.evs [⟨"9:00 AM - 10:00 AM", "X"⟩,
          ⟨"1:00 PM - 2:00 PM", "T"⟩]),
        ("Wednesday", DayVal.evs [⟨"9:00 AM - 10:00 AM", "X"⟩,
          ⟨"1:00 PM - 2:00 PM", "T"⟩])] "Wednesday"
      = some (DayVal.evs [⟨"9:00 AM - 10:00 AM", "X"⟩,
          ⟨"1:00 PM - 2:00 PM", "T"⟩]) ∧
    lookupD [("Monday", DayVal.evs [⟨"9:00 AM - 10:00 AM", "A2"⟩,
          ⟨"9:00 AM - 10:00 AM", "A2"⟩, ⟨"1:00 PM - 2:00 PM", "T"⟩]),
        ("Wednesday", DayVal.evs [⟨"9:00 AM - 10:00 AM", "A2"⟩,
          ⟨"9:00 AM - 10:00 AM", "A2"⟩, ⟨"1:00 PM - 2:00 PM", "T"⟩])]
        "Wednesday"
      = some (DayVal.evs [⟨"9:00 AM - 10:00 AM", "A2"⟩,
          ⟨"9:00 AM - 10:00 AM", "A2"⟩, ⟨"1:00 PM - 2:00 PM", "T"⟩]) ∧
    lookupD [("MW", DayVal.evs [⟨"1:00 PM - 2:00 PM", "T"⟩]),
        ("Monday", DayVal.ref "MW"), ("Wednesday", DayVal.ref "MW")] "MW"
      = lookupD [("Monday", DayVal.evs [⟨"1:00 PM - 2:00 PM", "T"⟩]),
        ("Wednesday", DayVal.evs [⟨"1:00 PM - 2:00 PM", "T"⟩])] "Monday" := by
  have hgc : GoodConfig [("MW", ["Monday", "Wednesday"])]
      [("MW", DayVal.evs [⟨"1:00 PM - 2:00 PM", "T"⟩]),
        ("Monday", DayVal.ref "MW"), ("Wednesday", DayVal.ref "MW")] := by
    refine ⟨by decide, by decide, by decide, by decide, ?_, by decide⟩
    intro p hp
    have hp' : p = ("MW", ["Monday", "Wednesday"]) := by simpa using hp
    subst hp'
    exact ⟨[⟨"1:00 PM - 2:00 PM", "T"⟩], by decide⟩
  refine ⟨?_, ?_, ?_⟩
  · obtain ⟨f, pr, h1, h2, h3⟩ := alias_template_refresh_amended.1
      [("MW", ["Monday", "Wednesday"])]
      [("MW", DayVal.evs [⟨"1:00 PM - 2:00 PM", "T"⟩]),
        ("Monday", DayVal.ref "MW"), ("Wednesday", DayVal.ref "MW")]
      "Monday" "9:00 AM" "10:00 AM" "X" "MW" ["Monday", "Wednesday"]
      [("MW", DayVal.evs [⟨"9:00 AM - 10:00 AM", "X"⟩,
          ⟨"1:00 PM - 2:00 PM", "T"⟩]),
        ("Monday", DayVal.ref "MW"), ("Wednesday", DayVal.ref "MW")]
      hgc (by decide) (by decide) (by decide)
    have hf : f = [⟨"9:00 AM - 10:00 AM", "X"⟩, ⟨"1:00 PM - 2:00 PM", "T"⟩] := by
      have hd : lookupD [("MW", DayVal.evs [⟨"9:00 AM - 10:00 AM", "X"⟩,
            ⟨"1:00 PM - 2:00 PM", "T"⟩]),
          ("Monday", DayVal.ref "MW"), ("Wednesday", DayVal.ref "MW")] "MW"
          = some (DayVal.evs [⟨"9:00 AM - 10:00 AM", "X"⟩,
            ⟨"1:00 PM - 2:00 PM", "T"⟩]) := by decide
      rw [h1] at hd
      simpa using hd
    subst hf
    have hpr : pr = ([("Monday", DayVal.evs [⟨"9:00 AM - 10:00 AM", "X"⟩,
          ⟨"1:00 PM - 2:00 PM", "T"⟩]),
        ("Wednesday", DayVal.evs [⟨"9:00 AM - 10:00 AM", "X"⟩,
          ⟨"1:00 PM - 2:00 PM", "T"⟩])],
        [("MW", DayVal.evs [⟨"9:00 AM - 10:00 AM", "X"⟩,
          ⟨"1:00 PM - 2:00 PM", "T"⟩]),
          ("Monday", DayVal.ref "MW"), ("Wednesday", DayVal.ref "MW")]) := by
      have hd : expand_schedule [("MW", ["Monday", "Wednesday"])]
          [("MW", DayVal.evs [⟨"9:00 AM - 10:00 AM", "X"⟩,
              ⟨"1:00 PM - 2:00 PM", "T"⟩]),
            ("Monday", DayVal.ref "MW"), ("Wednesday", DayVal.ref "MW")]
          = some ([("Monday", DayVal.evs [⟨"9:00 AM - 10:00 AM", "X"⟩,
              ⟨"1:00 PM - 2:00 PM", "T"⟩]),
            ("Wednesday", DayVal.evs [⟨"9:00 AM - 10:00 AM", "X"⟩,
              ⟨"1:00 PM - 2:00 PM", "T"⟩])],
            [("MW", DayVal.evs [⟨"9:00 AM - 10:00 AM", "X"⟩,
              ⟨"1:00 PM - 2:00 PM", "T"⟩]),
              ("Monday", DayVal.ref "MW"),
              ("Wednesday", DayVal.ref "MW")]) := by decide
      rw [h2] at hd
      simpa using hd
    subst hpr
    exact h3 "Wednesday" (by decide)
  · obtain ⟨f, pr, h1, h2, h3⟩ := alias_template_refresh_amended.2.1
      [("MW", ["Monday", "Wednesday"])]
      [("MW", DayVal.evs [⟨"1:00 PM - 2:00 PM", "T"⟩]),
        ("Monday", DayVal.ref "MW"), ("Wednesday", DayVal.ref "MW")]
      "Monday" "1:00 PM" "9:00 AM" "10:00 AM" "A2" "MW"
      ["Monday", "Wednesday"]
      [("MW", DayVal.evs [⟨"9:00 AM - 10:00 AM", "A2"⟩,
          ⟨"9:00 AM - 10:00 AM", "A2"⟩, ⟨"1:00 PM - 2:00 PM", "T"⟩]),
        ("Monday", DayVal.ref "MW"), ("Wednesday", DayVal.ref "MW")]
      hgc (by decide) (by decide) (by decide)
    have hf : f = [⟨"9:00 AM - 10:00 AM", "A2"⟩, ⟨"9:00 AM - 10:00 AM", "A2"⟩,
        ⟨"1:00 PM - 2:00 PM", "T"⟩] := by
      have hd : lookupD [("MW", DayVal.evs [⟨"9:00 AM - 10:00 AM", "A2"⟩,
            ⟨"9:00 AM - 10:00 AM", "A2"⟩, ⟨"1:00 PM - 2:00 PM", "T"⟩]),
          ("Monday", DayVal.ref "MW"), ("Wednesday", DayVal.ref "MW")] "MW"
          = some (DayVal.evs [⟨"9:00 AM - 10:00 AM", "A2"⟩,
            ⟨"9:00 AM - 10:00 AM", "A2"⟩, ⟨"1:00 PM - 2:00 PM", "T"⟩]) := by
        decide
      rw [h1] at hd
      simpa using hd
    subst hf
    have hpr : pr = ([("Monday", DayVal.evs [⟨"9:00 AM - 10:00 AM", "A2"⟩,
          ⟨"9:00 AM - 10:00 AM", "A2"⟩, ⟨"1:00 PM - 2:00 PM", "T"⟩]),
        ("Wednesday", DayVal.evs [⟨"9:00 AM - 10:00 AM", "A2"⟩,
          ⟨"9:00 AM - 10:00 AM", "A2"⟩, ⟨"1:00 PM - 2:00 PM", "T"⟩])],
        [("MW", DayVal.evs [⟨"9:00 AM - 10:00 AM", "A2"⟩,
          ⟨"9:00 AM - 10:00 AM", "A2"⟩, ⟨"1:00 PM - 2:00 PM", "T"⟩]),
          ("Monday", DayVal.ref "MW"), ("Wednesday", DayVal.ref "MW")]) := by
      have hd : expand_schedule [("MW", ["Monday", "Wednesday"])]
          [("MW", DayVal.evs [⟨"9:00 AM - 10:00 AM", "A2"⟩,
              ⟨"9:00 AM - 10:00 AM", "A2"⟩, ⟨"1:00 PM - 2:00 PM", "T"⟩]),
            ("Monday", DayVal.ref "MW"), ("Wednesday", DayVal.ref "MW")]
          = some ([("Monday", DayVal.evs [⟨"9:00 AM - 10:00 AM", "A2"⟩,
              ⟨"9:00 AM - 10:00 AM", "A2"⟩, ⟨"1:00 PM - 2:00 PM", "T"⟩]),
            ("Wednesday", DayVal.evs [⟨"9:00 AM - 10:00 AM", "A2"⟩,
              ⟨"9:00 AM - 10:00 AM", "A2"⟩, ⟨"1:00 PM - 2:00 PM", "T"⟩])],
            [("MW", DayVal.evs [⟨"9:00 AM - 10:00 AM", "A2"⟩,
              ⟨"9:00 AM - 10:00 AM", "A2"⟩, ⟨"1:00 PM - 2:00 PM", "T"⟩]),
              ("Monday", DayVal.ref "MW"),
              ("Wednesday", DayVal.ref "MW")]) := by decide
      rw [h2] at hd
      simpa using hd
    subst hpr
    exact h3 "Wednesday" (by decide)
  · obtain ⟨d0, tl, hmb, heq⟩ := alias_template_refresh_amended.2.2
      [("MW", ["Monday", "Wednesday"])]
      [("MW", DayVal.evs [⟨"1:00 PM - 2:00 PM", "T"⟩]),
        ("Monday", DayVal.ref "MW"), ("Wednesday", DayVal.ref "MW")]
      "MW" ["Monday", "Wednesday"]
      ([("Monday", DayVal.evs [⟨"1:00 PM - 2:00 PM", "T"⟩]),
        ("Wednesday", DayVal.evs [⟨"1:00 PM - 2:00 PM", "T"⟩])],
        [("MW", DayVal.evs [⟨"1:00 PM - 2:00 PM", "T"⟩]),
          ("Monday", DayVal.ref "MW"), ("Wednesday", DayVal.ref "MW")])
      (by decide) (by decide) (by decide) (by decide)
    have hd0 : d0 = "Monday" := by
      have := hmb
      simp at this
      exact this.1.symm
    subst hd0
    exact heq

end Scheduler
